import Mathlib

set_option autoImplicit false

/-!
Verification of the two parsing components of the `kmscale-pubs` tooling:
the BibTeX record scanner/field parser of `scripts/download_pdfs.py` and the
front-matter extractor of `scripts/add_arxiv_paper.py`.

The Python code is shallowly embedded over `List Char`.  Python string
helpers (`strip`, `lower`, `splitlines`) and the regular-expression `\s`/`\w`
classes are modelled on their ASCII fragment, which is the only fragment the
repository's inputs exercise.
-/

namespace KmscalePubs

abbrev Chars := List Char

/-- ASCII whitespace, the characters recognised by Python's `str.strip()`
and by the regex class `\s` on the inputs handled here. -/
def pyWs (c : Char) : Bool :=
  c = ' ' || c = '\t' || c = '\n' || c = '\r' || c = '\x0b' || c = '\x0c'

/-- Python `str.lstrip()`. -/
def lstrip (l : Chars) : Chars := l.dropWhile pyWs

/-- Python `str.rstrip()`. -/
def rstrip (l : Chars) : Chars := (l.reverse.dropWhile pyWs).reverse

/-- Python `str.strip()`. -/
def pstrip (l : Chars) : Chars := lstrip (rstrip l)

/-- Python `str.lower()` on one character (ASCII fragment). -/
def lowerChar (c : Char) : Char :=
  if 65 ≤ c.toNat ∧ c.toNat ≤ 90 then Char.ofNat (c.toNat + 32) else c

/-- Python `str.lower()`. -/
def toLowerL (l : Chars) : Chars := l.map lowerChar

/-- Word characters of the regex class `\w` (ASCII fragment). -/
def isWordChar (c : Char) : Bool := c.isAlpha || c.isDigit || c = '_'

/-! ### `scripts/download_pdfs.py`: `extract_entries` -/

/-- Attempt to match `ENTRY_START_RE`, the pattern `@\w+\s*{`, at the head of
`s`.  On success returns the text matched before the `{` and the remainder
beginning at the `{` (in `extract_entries` the subsequent
`text.find("{", match.end() - 1)` always lands exactly there). -/
def matchEntryStart (s : Chars) : Option (Chars × Chars) :=
  match s with
  | [] => none
  | c :: rest =>
    if c = '@' then
      let w := rest.takeWhile isWordChar
      let r2 := (rest.dropWhile isWordChar).dropWhile pyWs
      if w.isEmpty then none
      else if r2.head? = some '{' then
        some ('@' :: (w ++ (rest.dropWhile isWordChar).takeWhile pyWs), r2)
      else none
    else none

/-- The brace-depth scan of `extract_entries` (`download_pdfs.py` lines
27–39): starting with the given depth, consume characters, incrementing the
depth at `{` and decrementing at `}`; stop just after the `}` which brings
the depth to zero.  Returns the consumed text and the remainder, or `none`
when the depth never returns to zero before the end of the text. -/
def braceScan (depth : Int) : Chars → Option (Chars × Chars)
  | [] => none
  | c :: rest =>
    if c = '{' then (braceScan (depth + 1) rest).map (fun p => (c :: p.1, p.2))
    else if c = '}' then
      if depth = 1 then some ([c], rest)
      else (braceScan (depth - 1) rest).map (fun p => (c :: p.1, p.2))
    else (braceScan depth rest).map (fun p => (c :: p.1, p.2))

theorem dropWhile_length_le (p : Char → Bool) (l : Chars) :
    (l.dropWhile p).length ≤ l.length :=
  (List.dropWhile_sublist (l := l) p).length_le

theorem braceScan_length_lt (d : Int) (s t r : Chars)
    (h : braceScan d s = some (t, r)) : r.length < s.length := by
  induction s generalizing d t r with
  | nil => simp [braceScan] at h
  | cons c rest ih =>
    have step : ∀ d' : Int,
        (braceScan d' rest).map (fun p => (c :: p.1, p.2)) = some (t, r) →
        r.length < (c :: rest).length := by
      intro d' hm
      rw [Option.map_eq_some'] at hm
      obtain ⟨p, hb, hp⟩ := hm
      have hlt := ih d' p.1 p.2 (by rw [hb])
      cases hp
      simpa using Nat.lt_succ_of_lt hlt
    simp only [braceScan] at h
    split at h
    · exact step _ h
    · split at h
      · split at h
        · rw [Option.some.injEq] at h
          cases h
          simp
        · exact step _ h
      · exact step _ h

theorem matchEntryStart_length_lt (s pre fb : Chars)
    (h : matchEntryStart s = some (pre, fb)) : fb.length < s.length := by
  match s with
  | [] => simp [matchEntryStart] at h
  | c :: rest =>
    simp only [matchEntryStart] at h
    split at h
    · split at h
      · simp at h
      · split at h
        · simp only [Option.some.injEq, Prod.mk.injEq] at h
          have h2 : fb = ((rest.dropWhile isWordChar).dropWhile pyWs) := h.2.symm
          have : fb.length ≤ rest.length := by
            rw [h2]
            exact le_trans (dropWhile_length_le _ _) (dropWhile_length_le _ _)
          simpa using Nat.lt_succ_of_le this
        · simp at h
    · simp at h

/-- `extract_entries` (`download_pdfs.py` lines 16–42), over character
lists, with explicit fuel so that it evaluates by kernel reduction.  The
search for the next `@\w+\s*{` match advances one position at a time,
exactly as `re.search` does; every loop iteration strictly advances, so
the `length + 1` fuel supplied by `extractEntriesAux` always suffices. -/
def extractEntriesStep (rec : Chars → List Chars) : Chars → List Chars
  | [] => []
  | c :: rest =>
    match matchEntryStart (c :: rest) with
    | some (pre, fromBrace) =>
      match braceScan 0 fromBrace with
      | some (body, after) => (pre ++ body) :: rec after
      | none => []
    | none => rec rest

def extractEntriesGo : Nat → Chars → List Chars
  | 0, _ => []
  | fuel + 1, s => extractEntriesStep (extractEntriesGo fuel) s

def extractEntriesAux (s : Chars) : List Chars := extractEntriesGo (s.length + 1) s

/-- `extractEntriesStep` only consults its continuation on strictly shorter
inputs. -/
theorem extractEntriesStep_congr (rec1 rec2 : Chars → List Chars) (s : Chars)
    (h : ∀ t, t.length < s.length → rec1 t = rec2 t) :
    extractEntriesStep rec1 s = extractEntriesStep rec2 s := by
  match s with
  | [] => rfl
  | c :: rest =>
    simp only [extractEntriesStep]
    split
    · rename_i pre fromBrace hm
      split
      · rename_i body after hb
        have ha : after.length < (c :: rest).length :=
          Nat.lt_trans (braceScan_length_lt 0 fromBrace body after hb)
            (matchEntryStart_length_lt _ _ _ hm)
        rw [h after ha]
      · rfl
    · rw [h rest (by simp)]

theorem extractEntriesGo_fuel {f1 f2 : Nat} (s : Chars)
    (h1 : s.length < f1) (h2 : s.length < f2) :
    extractEntriesGo f1 s = extractEntriesGo f2 s := by
  induction f1 generalizing f2 s with
  | zero => omega
  | succ f1 ih =>
    match f2, h2 with
    | f2 + 1, h2 =>
      show extractEntriesStep (extractEntriesGo f1) s = extractEntriesStep (extractEntriesGo f2) s
      exact extractEntriesStep_congr _ _ s (fun t ht => ih t (by omega) (by omega))

/-- One-step unfolding of `extractEntriesAux` as the natural recurrence of
the source loop. -/
theorem extractEntriesAux_eq (s : Chars) :
    extractEntriesAux s = extractEntriesStep extractEntriesAux s := by
  show extractEntriesStep (extractEntriesGo s.length) s = _
  exact extractEntriesStep_congr _ _ s
    (fun t ht => extractEntriesGo_fuel t (by omega) (by omega))

/-- `extract_entries` from `download_pdfs.py`. -/
def extract_entries (text : String) : List String :=
  (extractEntriesAux text.data).map List.asString

/-! ### `scripts/download_pdfs.py`: `parse_fields` -/

/-- The separator characters `"\n\r\t ,"` skipped before a field name
(`download_pdfs.py` line 63). -/
def isFieldSep (c : Char) : Bool := c = '\n' || c = '\r' || c = '\t' || c = ' ' || c = ','

/-- The whitespace characters `" \t\n\r"` skipped after `=` (line 74). -/
def isValueGapWs (c : Char) : Bool := c = ' ' || c = '\t' || c = '\n' || c = '\r'

/-- Python dict assignment `fields[field_key] = value`: replace the value in
place when the key is already present, otherwise append the pair. -/
def dictSet (m : List (Chars × Chars)) (k v : Chars) : List (Chars × Chars) :=
  match m with
  | [] => [(k, v)]
  | (k', v') :: rest => if k' = k then (k', v) :: rest else (k', v') :: dictSet rest k v

/-- The `{`-delimited value scan of `parse_fields` (lines 82–91): consume
characters while the depth stays positive, incrementing it at `{` and
decrementing at `}`.  Returns the consumed characters (including the closing
`}` when one is reached) and the remainder. -/
def braceValueScan (depth : Int) : Chars → Chars × Chars
  | [] => ([], [])
  | c :: rest =>
    if depth ≤ 0 then ([], c :: rest)
    else
      let d := if c = '{' then depth + 1 else if c = '}' then depth - 1 else depth
      let p := braceValueScan d rest
      (c :: p.1, p.2)

theorem braceValueScan_length_le (d : Int) (s : Chars) :
    (braceValueScan d s).2.length ≤ s.length := by
  induction s generalizing d with
  | nil => simp [braceValueScan]
  | cons c rest ih =>
    rw [braceValueScan]
    split
    · simp
    · simpa using Nat.le_succ_of_le (ih _)

/-- The post-value resynchronisation loop (lines 105–109): consume
characters up to a newline (which is not consumed) or past one comma. -/
def postSkip : Chars → Chars
  | [] => []
  | c :: rest => if c = '\n' then c :: rest else if c = ',' then rest else postSkip rest

theorem postSkip_length_le (s : Chars) : (postSkip s).length ≤ s.length := by
  induction s with
  | nil => simp [postSkip]
  | cons c rest ih =>
    rw [postSkip]
    split
    · simp
    · split
      · simp
      · exact Nat.le_succ_of_le ih

/-- Length bound for one iteration of the field loop: after the separator
skip, a non-empty field name and the `=` have been consumed, so the text
after the value delimiter position sits at least two characters inside the
iteration's input. -/
theorem parseStep_lt (s s3 s5 : Chars) (x d : Char)
    (hkr : (s.dropWhile isFieldSep).takeWhile (fun c => c ≠ '=') ≠ [])
    (h2 : (s.dropWhile isFieldSep).dropWhile (fun c => c ≠ '=') = x :: s3)
    (h4 : s3.dropWhile isValueGapWs = d :: s5) :
    s5.length + 1 < s.length := by
  have hkl : 1 ≤ ((s.dropWhile isFieldSep).takeWhile (fun c => c ≠ '=')).length :=
    List.length_pos.mpr hkr
  have hsplit : ((s.dropWhile isFieldSep).takeWhile (fun c => c ≠ '=')).length +
      ((s.dropWhile isFieldSep).dropWhile (fun c => c ≠ '=')).length =
      (s.dropWhile isFieldSep).length := by
    rw [← List.length_append, List.takeWhile_append_dropWhile]
  have h2l : ((s.dropWhile isFieldSep).dropWhile (fun c => c ≠ '=')).length = s3.length + 1 := by
    rw [h2]; rfl
  have h4a : (s3.dropWhile isValueGapWs).length = s5.length + 1 := by rw [h4]; rfl
  have h4b : (s3.dropWhile isValueGapWs).length ≤ s3.length := dropWhile_length_le _ _
  have hs1 : (s.dropWhile isFieldSep).length ≤ s.length := dropWhile_length_le _ _
  omega

/-- One iteration of the field-list scanning loop of `parse_fields` (lines
59–110): skip separators, read the name up to `=`, choose the delimiter
mode, record the field and resynchronise; `rec` continues the loop. -/
def parseFieldsStep (rec : Chars → List (Chars × Chars) → List (Chars × Chars))
    (s : Chars) (acc : List (Chars × Chars)) : List (Chars × Chars) :=
  let s1 := s.dropWhile isFieldSep
  if s1.isEmpty then acc
  else
    let keyRaw := s1.takeWhile (fun c => c ≠ '=')
    let fkey := toLowerL (pstrip keyRaw)
    if fkey.isEmpty then acc
    else
      match s1.dropWhile (fun c => c ≠ '=') with
      | [] => acc
      | _ :: s3 =>
        match s3.dropWhile isValueGapWs with
        | [] => acc
        | d :: s5 =>
          if d = '{' then
            let p := braceValueScan 1 s5
            let value := pstrip p.1.dropLast
            rec (postSkip p.2) (dictSet acc fkey value)
          else if d = '"' then
            let value := pstrip (s5.takeWhile (fun c => c ≠ '"'))
            let s6 := (s5.dropWhile (fun c => c ≠ '"')).tail
            rec (postSkip s6) (dictSet acc fkey value)
          else
            let value := pstrip ((d :: s5).takeWhile (fun c => c ≠ ',' ∧ c ≠ '\n'))
            let s6 := (d :: s5).dropWhile (fun c => c ≠ ',' ∧ c ≠ '\n')
            rec (postSkip s6) (dictSet acc fkey value)

/-- The field-list scanning loop, driven by explicit fuel so that it
evaluates by kernel reduction; one iteration consumes at least one
character, so the `length + 1` fuel supplied by `parseFieldsAux` below
always suffices. -/
def parseFieldsGo : Nat → Chars → List (Chars × Chars) → List (Chars × Chars)
  | 0, _, acc => acc
  | fuel + 1, s, acc => parseFieldsStep (parseFieldsGo fuel) s acc

def parseFieldsAux (s : Chars) (acc : List (Chars × Chars)) : List (Chars × Chars) :=
  parseFieldsGo (s.length + 1) s acc

theorem parseStepBrace_lt (s s3 s5 : Chars) (x d : Char)
    (hkr : (s.dropWhile isFieldSep).takeWhile (fun c => c ≠ '=') ≠ [])
    (h2 : (s.dropWhile isFieldSep).dropWhile (fun c => c ≠ '=') = x :: s3)
    (h4 : s3.dropWhile isValueGapWs = d :: s5) :
    (postSkip (braceValueScan 1 s5).2).length < s.length := by
  have ha := parseStep_lt s s3 s5 x d hkr h2 h4
  have hb := postSkip_length_le (braceValueScan 1 s5).2
  have hc := braceValueScan_length_le 1 s5
  omega

theorem parseStepQuote_lt (s s3 s5 : Chars) (x d : Char)
    (hkr : (s.dropWhile isFieldSep).takeWhile (fun c => c ≠ '=') ≠ [])
    (h2 : (s.dropWhile isFieldSep).dropWhile (fun c => c ≠ '=') = x :: s3)
    (h4 : s3.dropWhile isValueGapWs = d :: s5) :
    (postSkip ((s5.dropWhile (fun c => c ≠ '"')).tail)).length < s.length := by
  have ha := parseStep_lt s s3 s5 x d hkr h2 h4
  have hb := postSkip_length_le ((s5.dropWhile (fun c => c ≠ '"')).tail)
  have hc : (s5.dropWhile (fun c => c ≠ '"')).length ≤ s5.length := dropWhile_length_le _ _
  have hd := List.length_tail (s5.dropWhile (fun c => c ≠ '"'))
  omega

theorem parseStepBare_lt (s s3 s5 : Chars) (x d : Char)
    (hkr : (s.dropWhile isFieldSep).takeWhile (fun c => c ≠ '=') ≠ [])
    (h2 : (s.dropWhile isFieldSep).dropWhile (fun c => c ≠ '=') = x :: s3)
    (h4 : s3.dropWhile isValueGapWs = d :: s5) :
    (postSkip ((d :: s5).dropWhile (fun c => c ≠ ',' ∧ c ≠ '\n'))).length < s.length := by
  have ha := parseStep_lt s s3 s5 x d hkr h2 h4
  have hb := postSkip_length_le ((d :: s5).dropWhile (fun c => c ≠ ',' ∧ c ≠ '\n'))
  have hc : ((d :: s5).dropWhile (fun c => c ≠ ',' ∧ c ≠ '\n')).length ≤ s5.length + 1 := by
    simpa using dropWhile_length_le (fun c => decide (c ≠ ',' ∧ c ≠ '\n')) (d :: s5)
  omega

/-- `parseFieldsStep` only consults its continuation on strictly shorter
inputs, so any two continuations that agree there give the same result. -/
theorem parseFieldsStep_congr
    (rec1 rec2 : Chars → List (Chars × Chars) → List (Chars × Chars))
    (s : Chars) (acc : List (Chars × Chars))
    (h : ∀ t acc', t.length < s.length → rec1 t acc' = rec2 t acc') :
    parseFieldsStep rec1 s acc = parseFieldsStep rec2 s acc := by
  simp only [parseFieldsStep]
  split
  · rfl
  · split
    · rfl
    · rename_i hne hfk
      have hkr : (s.dropWhile isFieldSep).takeWhile (fun c => c ≠ '=') ≠ [] := by
        intro hk
        exact hfk (by rw [hk]; rfl)
      split
      · rfl
      · rename_i x s3 h2
        split
        · rfl
        · rename_i d s5 h4
          split
          · exact h _ _ (parseStepBrace_lt s s3 s5 x d hkr h2 h4)
          · split
            · exact h _ _ (parseStepQuote_lt s s3 s5 x d hkr h2 h4)
            · exact h _ _ (parseStepBare_lt s s3 s5 x d hkr h2 h4)

theorem parseFieldsGo_fuel {f1 f2 : Nat} (s : Chars) (acc : List (Chars × Chars))
    (hf1 : s.length < f1) (hf2 : s.length < f2) :
    parseFieldsGo f1 s acc = parseFieldsGo f2 s acc := by
  induction f1 generalizing f2 s acc with
  | zero => omega
  | succ f1 ih =>
    match f2, hf2 with
    | f2 + 1, hf2 =>
      show parseFieldsStep (parseFieldsGo f1) s acc = parseFieldsStep (parseFieldsGo f2) s acc
      exact parseFieldsStep_congr _ _ s acc
        (fun t acc' ht => ih t acc' (by omega) (by omega))

/-- One-step unfolding of `parseFieldsAux` as the natural recurrence of the
source loop. -/
theorem parseFieldsAux_eq (s : Chars) (acc : List (Chars × Chars)) :
    parseFieldsAux s acc = parseFieldsStep parseFieldsAux s acc := by
  show parseFieldsStep (parseFieldsGo s.length) s acc = _
  exact parseFieldsStep_congr _ _ s acc
    (fun t acc' ht => parseFieldsGo_fuel t acc' (by omega) (by omega))

/-- `KEY_RE` search (line 13): the leftmost match of the pattern
`@\w+\s*{\s*([^,\s]+)`.  Returns the captured key and the remainder of the
text after the end of the match.  When an `@` fails to complete a match the
search resumes at the following position, as `re.search` does. -/
def keySearch : Chars → Option (Chars × Chars)
  | [] => none
  | c :: rest =>
    (if c = '@' then
      let w := rest.takeWhile isWordChar
      let r2 := (rest.dropWhile isWordChar).dropWhile pyWs
      if w.isEmpty then none
      else
        match r2 with
        | [] => none
        | b :: r3 =>
          if b = '{' then
            let r4 := r3.dropWhile pyWs
            let k := r4.takeWhile (fun x => !pyWs x && x ≠ ',')
            if k.isEmpty then none
            else some (k, r4.dropWhile (fun x => !pyWs x && x ≠ ','))
          else none
     else none).orElse (fun _ => keySearch rest)

/-- `parse_fields` from `download_pdfs.py` (lines 45–110), over character
lists.  Returns the entry key (`none` when `KEY_RE` does not match) and the
ordered field mapping. -/
def parseFieldsL (entry : Chars) : Option Chars × List (Chars × Chars) :=
  match keySearch entry with
  | none => (none, [])
  | some (k, afterKey) =>
    let key := pstrip k
    match afterKey.dropWhile (fun c => c ≠ ',') with
    | [] => (some key, [])
    | _ :: afterComma =>
      let ft0 := pstrip afterComma
      let ft := if ft0.getLast? = some '}' then ft0.dropLast else ft0
      (some key, parseFieldsAux ft [])

/-- `parse_fields` from `download_pdfs.py`. -/
def parse_fields (entry : String) : Option String × List (String × String) :=
  let r := parseFieldsL entry.data
  (r.1.map List.asString, r.2.map (fun p => (p.1.asString, p.2.asString)))

/-! ### `scripts/add_arxiv_paper.py`: `extract_basic_metadata` -/

/-- Python `str.splitlines()` (ASCII line boundaries `\n`, `\r\n`, `\r`,
`\x0b`, `\x0c`; no empty trailing line). -/
def splitlinesAux : Chars → Chars → List Chars
  | [], acc => if acc.isEmpty then [] else [acc.reverse]
  | '\r' :: '\n' :: rest, acc => acc.reverse :: splitlinesAux rest []
  | c :: rest, acc =>
    if c = '\n' || c = '\r' || c = '\x0b' || c = '\x0c' then
      acc.reverse :: splitlinesAux rest []
    else splitlinesAux rest (c :: acc)

def splitlines (s : Chars) : List Chars := splitlinesAux s []

/-- `startswith`. -/
def startsWith (p l : Chars) : Bool := p.isPrefixOf l

/-- The `affiliation_keywords` set (`add_arxiv_paper.py` lines 70–82). -/
def affiliationKeywords : List Chars :=
  ["university".data, "institute".data, "department".data, "laboratory".data,
   "centre".data, "center".data, "school".data, "college".data,
   "observatory".data, "academy".data, "faculty".data]

/-- Python substring containment (`needle in hay`). -/
def containsSeq (hay needle : Chars) : Bool :=
  needle.isPrefixOf hay ||
    match hay with
    | [] => false
    | _ :: rest => containsSeq rest needle

/-- `looks_like_affiliation` (lines 84–86). -/
def looksLikeAffiliation (line : Chars) : Bool :=
  affiliationKeywords.any (fun k => containsSeq (toLowerL line) k) || line.contains '@'

/-- The character class `[\\w'.-]` of `name_pattern` (line 127).  The
pattern sits inside a *raw* Python string, so `\\` denotes one literal
backslash character and `w` is the plain letter `w`: the class contains
exactly the five characters backslash, `w`, apostrophe, dot and hyphen. -/
def namePatClass (c : Char) : Bool := c = '\\' || c = 'w' || c = '\'' || c = '.' || c = '-'

/-- All remainders obtainable by consuming one or more leading characters
satisfying `p` — the backtracking choices of a regex `+`. -/
def plusSplits (p : Char → Bool) : Chars → List Chars
  | [] => []
  | c :: rest => if p c then rest :: plusSplits p rest else []

/-- Remainders after one `[A-Z][\\w'.-]+` token of `name_pattern`. -/
def nameTokenSplits (s : Chars) : List Chars :=
  match s with
  | [] => []
  | c :: rest => if c.isUpper then plusSplits namePatClass rest else []

/-- Remainders after the separator `\\s+` of `name_pattern` — again inside
a raw string, so it matches one literal backslash followed by one or more
letters `s`. -/
def nameSepSplits (s : Chars) : List Chars :=
  match s with
  | [] => []
  | c :: rest => if c = '\\' then plusSplits (fun x => x = 's') rest else []

def nameSepTokenSplits (s : Chars) : List Chars :=
  (nameSepSplits s).flatMap nameTokenSplits

/-- `name_pattern.match` (line 127): the anchored pattern
`^[A-Z][\\w'.-]+(?:\\s+[A-Z][\\w'.-]+){1,3}$`, with full backtracking. -/
def namePatternMatch (s : Chars) : Bool :=
  let t1 := nameTokenSplits s
  let r1 := t1.flatMap nameSepTokenSplits
  let r2 := r1.flatMap nameSepTokenSplits
  let r3 := r2.flatMap nameSepTokenSplits
  (r1 ++ r2 ++ r3).any List.isEmpty

/-- `re.split(r"\\s+", s)` (line 92): the separator pattern is inside a raw
string, so it matches one literal backslash followed by one or more letters
`s`. -/
def splitEscSAux : Chars → Chars → List Chars
  | acc, [] => [acc.reverse]
  | acc, '\\' :: 's' :: rest =>
    acc.reverse :: splitEscSAux [] (rest.dropWhile (fun c => c = 's'))
  | acc, c :: rest => splitEscSAux (c :: acc) rest
termination_by _ s => s.length
decreasing_by
  · simpa using Nat.lt_succ_of_lt (Nat.lt_succ_of_le (dropWhile_length_le _ _))
  · simp

/-- Python `word.strip(",.")`. -/
def stripCommaDot (w : Chars) : Chars :=
  ((w.dropWhile (fun c => c = ',' || c = '.')).reverse.dropWhile
    (fun c => c = ',' || c = '.')).reverse

/-- Python `str.isupper()` (ASCII fragment): at least one cased character
and no lower-case character. -/
def pyIsUpper (w : Chars) : Bool := w.any Char.isAlpha && w.all (fun c => !c.isLower)

/-- `looks_like_author` (lines 88–103).  Defined in the source but never
called: the author loop below tests `name_pattern` directly. -/
def looksLikeAuthor (line : Chars) : Bool :=
  let stripped := pstrip line
  if stripped.isEmpty || looksLikeAffiliation stripped then false
  else
    let words := (splitEscSAux [] stripped).filter (fun w => !w.isEmpty)
    if !(decide (1 < words.length) && decide (words.length ≤ 5)) then false
    else words.all (fun w0 =>
      let w := stripCommaDot w0
      match w with
      | [] => true
      | c :: _ => !(pyIsUpper w && decide (2 < w.length)) && c.isUpper)

/-- The header-window loop (lines 60–68): walk at most the first 80 lines,
stop before the first line whose stripped content starts case-insensitively
with `"abstract"`, collect the (rstripped) lines, and remember the last
stripped line starting with `"arXiv:"`. -/
def headerScanAux : List Chars → List Chars → Chars → List Chars × Chars
  | [], acc, arx => (acc.reverse, arx)
  | line :: rest, acc, arx =>
    let stripped := pstrip line
    if startsWith "abstract".data (toLowerL stripped) then (acc.reverse, arx)
    else
      headerScanAux rest (line :: acc)
        (if startsWith "arXiv:".data stripped then stripped else arx)

/-- The title loop (lines 105–122): starting not-started, skip banner lines
(stripped content beginning with `"arXiv:"`); the first non-blank line
starts the title; then collect stripped lines until a blank line; banner
lines are skipped throughout.  Also returns `title_end_index`, the header
index of the last line appended (`0` when none was). -/
def titleScanAux : Nat → Bool → Nat → List Chars → List Chars × Nat
  | _, _, tei, [] => ([], tei)
  | idx, false, tei, line :: rest =>
    let stripped := pstrip line
    if startsWith "arXiv:".data stripped then titleScanAux (idx + 1) false tei rest
    else if stripped.isEmpty then titleScanAux (idx + 1) false tei rest
    else
      let p := titleScanAux (idx + 1) true idx rest
      (stripped :: p.1, p.2)
  | idx, true, tei, line :: rest =>
    let stripped := pstrip line
    if startsWith "arXiv:".data stripped then titleScanAux (idx + 1) true tei rest
    else if stripped.isEmpty then ([], tei)
    else
      let p := titleScanAux (idx + 1) true idx rest
      (stripped :: p.1, p.2)

/-- The author loop (lines 126–137): over the header lines strictly after
`title_end_index`, keep the stripped lines that are non-blank, do not look
like an affiliation, contain no comma, and either match `name_pattern` or
are followed by a line that looks like an affiliation. -/
def authorScan : List Chars → List Chars
  | [] => []
  | line :: rest =>
    let stripped := pstrip line
    let nextLine := match rest with | [] => ([] : Chars) | l :: _ => pstrip l
    let keep :=
      if stripped.isEmpty || looksLikeAffiliation stripped then false
      else if stripped.contains ',' then false
      else namePatternMatch stripped || looksLikeAffiliation nextLine
    if keep then stripped :: authorScan rest else authorScan rest

/-- Join a list of lines with a separator (Python `sep.join`). -/
def joinWith (sep : Chars) : List Chars → Chars
  | [] => []
  | [l] => l
  | l :: l' :: ls => l ++ sep ++ joinWith sep (l' :: ls)

/-- Python `str.replace("  ", " ")`: replace each occurrence of two spaces
by one, scanning left to right without overlap. -/
def replaceDouble : Chars → Chars
  | [] => []
  | [c] => [c]
  | c1 :: c2 :: rest =>
    if c1 = ' ' ∧ c2 = ' ' then ' ' :: replaceDouble rest
    else c1 :: replaceDouble (c2 :: rest)

mutual

/-- `re.sub(r"\s{2,}", " ", s)` (line 144): collapse each run of two or
more whitespace characters to one space (runs of exactly one are kept
verbatim).  `collapseSkip` consumes the remaining whitespace of a run whose
first two characters have been seen and emits the single space. -/
def collapseWs : Chars → Chars
  | [] => []
  | [c] => [c]
  | c1 :: c2 :: rest =>
    if pyWs c1 && pyWs c2 then collapseSkip rest
    else c1 :: collapseWs (c2 :: rest)

def collapseSkip : Chars → Chars
  | [] => [' ']
  | e :: r2 => if pyWs e then collapseSkip r2 else ' ' :: e :: collapseWs r2

end

/-- Python `str.strip(", ")` (line 144). -/
def stripCommaSpace (l : Chars) : Chars :=
  ((l.dropWhile (fun c => c = ',' || c = ' ')).reverse.dropWhile
    (fun c => c = ',' || c = ' ')).reverse

/-- Helper for `re.search(r"\[(.+?)\]", s)` (line 151): inside a candidate
match the lazy `.+?` has already consumed its first character (held in
`acc`); extend it to the first `]`, failing at a newline (`.` does not
match `\n`) or at the end. -/
def bracketClose : Chars → Chars → Option Chars
  | [], _ => none
  | c :: rest, acc =>
    if c = ']' then some acc.reverse
    else if c = '\n' then none
    else bracketClose rest (c :: acc)

/-- `re.search(r"\[(.+?)\]", s)`: the first `[` from which a `]` is
reachable over at least one non-newline character; the group is the
shortest such inner text. -/
def firstBracketed : Chars → Option Chars
  | [] => none
  | c :: rest =>
    (if c = '[' then
      match rest with
      | [] => none
      | c2 :: rest' => if c2 = '\n' then none else bracketClose rest' [c2]
     else none).orElse (fun _ => firstBracketed rest)

/-- `re.search(r"(19|20)\d{2}", s)` (line 154): the first four-digit
substring beginning with `19` or `20`. -/
def firstYear : Chars → Option Chars
  | c1 :: c2 :: c3 :: c4 :: rest =>
    if ((c1 = '1' && c2 = '9') || (c1 = '2' && c2 = '0')) && c3.isDigit && c4.isDigit
    then some [c1, c2, c3, c4]
    else firstYear (c2 :: c3 :: c4 :: rest)
  | _ => none

/-- The record returned by `extract_basic_metadata`. -/
structure Metadata where
  title : String
  author : String
  year : String
  primary_class : String
deriving Repr, DecidableEq

/-- `extract_basic_metadata` from `add_arxiv_paper.py` (lines 57–163). -/
def extract_basic_metadata (text : String) : Metadata :=
  let lines := (splitlines text.data).map rstrip
  let hp := headerScanAux (lines.take 80) [] []
  let headerLines := hp.1
  let arxivLine := hp.2
  let tp := titleScanAux 0 false 0 headerLines
  let title := pstrip (replaceDouble (joinWith [' '] tp.1))
  let remaining := headerLines.drop (tp.2 + 1)
  let authorLines := authorScan remaining
  let a0 := pstrip (replaceDouble (joinWith " and ".data authorLines))
  let a1 := a0.filter (fun c => c ≠ '*')
  let a2 := a1.filter (fun c => !c.isDigit)
  let a3 := stripCommaSpace (collapseWs a2)
  let year := if arxivLine.isEmpty then [] else (firstYear arxivLine).getD []
  let pclass := if arxivLine.isEmpty then [] else (firstBracketed arxivLine).getD []
  { title := title.asString, author := a3.asString,
    year := year.asString, primary_class := pclass.asString }

/-! ### Helper lemmas about the string primitives -/

theorem toNat_ofNat_small (n : Nat) (h : n < 55296) : (Char.ofNat n).toNat = n := by
  have hv : n.isValidChar := Or.inl h
  rw [Char.ofNat, dif_pos hv]
  simp [Char.ofNatAux, Char.toNat, UInt32.toNat]

theorem lowerChar_shift (c : Char) (h : 65 ≤ c.toNat ∧ c.toNat ≤ 90) :
    lowerChar c = Char.ofNat (c.toNat + 32) := by
  unfold lowerChar
  rw [if_pos h]

theorem lowerChar_fix (c : Char) (h : ¬(65 ≤ c.toNat ∧ c.toNat ≤ 90)) :
    lowerChar c = c := by
  unfold lowerChar
  rw [if_neg h]

theorem lowerChar_toNat_of_upper (c : Char) (h : 65 ≤ c.toNat ∧ c.toNat ≤ 90) :
    (lowerChar c).toNat = c.toNat + 32 := by
  rw [lowerChar_shift c h]
  exact toNat_ofNat_small _ (by omega)

theorem lowerChar_idem (c : Char) : lowerChar (lowerChar c) = lowerChar c := by
  by_cases h : 65 ≤ c.toNat ∧ c.toNat ≤ 90
  · have ht := lowerChar_toNat_of_upper c h
    exact lowerChar_fix _ (by omega)
  · rw [lowerChar_fix c h]
    exact lowerChar_fix c h

theorem toLowerL_idem (l : Chars) : toLowerL (toLowerL l) = toLowerL l := by
  unfold toLowerL
  rw [List.map_map]
  exact List.map_congr_left (fun c _ => lowerChar_idem c)

theorem char_ne_of_toNat_ne {c d : Char} (h : c.toNat ≠ d.toNat) : c ≠ d :=
  fun he => h (by rw [he])

theorem pyWs_eq_false (c : Char)
    (h : ¬(c.toNat = 32 ∨ c.toNat = 9 ∨ c.toNat = 10 ∨ c.toNat = 13 ∨
           c.toNat = 11 ∨ c.toNat = 12)) :
    pyWs c = false := by
  push_neg at h
  obtain ⟨h1, h2, h3, h4, h5, h6⟩ := h
  have e1 : c ≠ ' ' := char_ne_of_toNat_ne (by rw [show (' ').toNat = 32 from rfl]; exact h1)
  have e2 : c ≠ '\t' := char_ne_of_toNat_ne (by rw [show ('\t').toNat = 9 from rfl]; exact h2)
  have e3 : c ≠ '\n' := char_ne_of_toNat_ne (by rw [show ('\n').toNat = 10 from rfl]; exact h3)
  have e4 : c ≠ '\r' := char_ne_of_toNat_ne (by rw [show ('\r').toNat = 13 from rfl]; exact h4)
  have e5 : c ≠ '\x0b' := char_ne_of_toNat_ne (by rw [show ('\x0b').toNat = 11 from rfl]; exact h5)
  have e6 : c ≠ '\x0c' := char_ne_of_toNat_ne (by rw [show ('\x0c').toNat = 12 from rfl]; exact h6)
  simp [pyWs, e1, e2, e3, e4, e5, e6]

theorem pyWs_lowerChar (c : Char) : pyWs (lowerChar c) = pyWs c := by
  by_cases h : 65 ≤ c.toNat ∧ c.toNat ≤ 90
  · have ht := lowerChar_toNat_of_upper c h
    rw [pyWs_eq_false _ (by omega), pyWs_eq_false _ (by omega)]
  · rw [lowerChar_fix c h]

theorem lstrip_toLowerL (l : Chars) : lstrip (toLowerL l) = toLowerL (lstrip l) := by
  have hw : (pyWs ∘ lowerChar) = pyWs := funext (fun c => pyWs_lowerChar c)
  unfold lstrip toLowerL
  rw [List.dropWhile_map, hw]

theorem rstrip_toLowerL (l : Chars) : rstrip (toLowerL l) = toLowerL (rstrip l) := by
  have hw : (pyWs ∘ lowerChar) = pyWs := funext (fun c => pyWs_lowerChar c)
  unfold rstrip toLowerL
  rw [← List.map_reverse, List.dropWhile_map, hw, List.map_reverse]

theorem pstrip_toLowerL (l : Chars) : pstrip (toLowerL l) = toLowerL (pstrip l) := by
  show lstrip (rstrip (toLowerL l)) = toLowerL (pstrip l)
  rw [rstrip_toLowerL, lstrip_toLowerL]
  rfl

theorem lstrip_eq_self_of_head {x : Chars} (h : ∀ c ∈ x.head?, pyWs c = false) :
    x.dropWhile pyWs = x := by
  match x with
  | [] => rfl
  | c :: rest =>
    have hc : pyWs c = false := h c (by simp)
    rw [List.dropWhile_cons, if_neg (by simp [hc])]

theorem rstrip_eq_self_of_getLast {x : Chars} (h : ∀ c ∈ x.getLast?, pyWs c = false) :
    rstrip x = x := by
  unfold rstrip
  rw [lstrip_eq_self_of_head (by rw [List.head?_reverse]; exact h), List.reverse_reverse]

theorem dropWhile_pyWs_head {x : Chars} : ∀ c ∈ (x.dropWhile pyWs).head?, pyWs c = false := by
  intro c hc
  by_cases h : x.dropWhile pyWs = []
  · rw [h] at hc; simp at hc
  · rw [List.head?_eq_head h] at hc
    simp only [Option.mem_def, Option.some.injEq] at hc
    rw [← hc]
    exact List.head_dropWhile_not pyWs x h

theorem getLast?_of_suffix {x y : Chars} (h : x <:+ y) (hne : x ≠ []) :
    y.getLast? = x.getLast? := by
  obtain ⟨pre, rfl⟩ := h
  rw [List.getLast?_append, Option.or_of_isSome (List.getLast?_isSome.mpr hne)]

theorem rstrip_getLast {l : Chars} : ∀ c ∈ (rstrip l).getLast?, pyWs c = false := by
  intro c hc
  unfold rstrip at hc
  rw [List.getLast?_reverse] at hc
  exact dropWhile_pyWs_head c hc

theorem pstrip_getLast {l : Chars} : ∀ c ∈ (pstrip l).getLast?, pyWs c = false := by
  intro c hc
  by_cases h : pstrip l = []
  · rw [h] at hc; simp at hc
  · have hsuf : pstrip l <:+ rstrip l := List.dropWhile_suffix pyWs
    rw [← getLast?_of_suffix hsuf h] at hc
    exact rstrip_getLast c hc

theorem pstrip_head {l : Chars} : ∀ c ∈ (pstrip l).head?, pyWs c = false :=
  dropWhile_pyWs_head

theorem pstrip_idem (l : Chars) : pstrip (pstrip l) = pstrip l := by
  show lstrip (rstrip (pstrip l)) = pstrip l
  rw [rstrip_eq_self_of_getLast pstrip_getLast]
  exact lstrip_eq_self_of_head pstrip_head

theorem takeWhile_append_all {p : Char → Bool} {a : Chars} (b : Chars)
    (h : ∀ c ∈ a, p c = true) : (a ++ b).takeWhile p = a ++ b.takeWhile p := by
  induction a with
  | nil => rfl
  | cons x xs ih =>
    rw [List.cons_append, List.takeWhile_cons, if_pos (h x (by simp)),
      ih (fun c hc => h c (by simp [hc])), List.cons_append]

theorem dropWhile_append_all {p : Char → Bool} {a : Chars} (b : Chars)
    (h : ∀ c ∈ a, p c = true) : (a ++ b).dropWhile p = b.dropWhile p := by
  induction a with
  | nil => rfl
  | cons x xs ih =>
    rw [List.cons_append, List.dropWhile_cons, if_pos (h x (by simp)),
      ih (fun c hc => h c (by simp [hc]))]

theorem pstrip_eq_self {x : Chars} (h1 : ∀ c ∈ x.head?, pyWs c = false)
    (h2 : ∀ c ∈ x.getLast?, pyWs c = false) : pstrip x = x := by
  show lstrip (rstrip x) = x
  rw [rstrip_eq_self_of_getLast h2]
  exact lstrip_eq_self_of_head h1

/-! ### Brace balance bookkeeping -/

/-- Depth contribution of one character in a brace scan. -/
def braceDelta (c : Char) : Int :=
  if c = '\x7b' then 1 else if c = '\x7d' then -1 else 0

/-- Net brace balance of a text. -/
def bal : Chars → Int
  | [] => 0
  | c :: rest => braceDelta c + bal rest

/-- `minDepthOk d v` says that, scanning `v` from depth `d`, the depth is
at least `1` after every character: the depth never returns to zero. -/
def minDepthOk (d : Int) : Chars → Bool
  | [] => true
  | c :: rest => decide (1 ≤ d + braceDelta c) && minDepthOk (d + braceDelta c) rest

theorem bal_append (a b : Chars) : bal (a ++ b) = bal a + bal b := by
  induction a with
  | nil => simp [bal]
  | cons c rest ih => simp [bal, ih]; omega

/-- A scan started at a non-positive depth consumes nothing. -/
theorem braceValueScan_nonpos (d : Int) (s : Chars) (hd : d ≤ 0) :
    braceValueScan d s = ([], s) := by
  match s with
  | [] => rfl
  | c :: rest =>
    rw [braceValueScan, if_pos hd]

/-- On a value whose depth, starting at `d ≥ 1`, stays positive throughout
and returns to exactly zero at a final closing brace, the value scan of
`parse_fields` consumes exactly the value and that closing brace. -/
theorem braceStep_eq (c : Char) (d : Int) :
    (if c = '\x7b' then d + 1 else if c = '\x7d' then d - 1 else d) = d + braceDelta c := by
  unfold braceDelta
  by_cases h1 : c = '\x7b'
  · simp [h1]
  · by_cases h2 : c = '\x7d'
    · simp [h1, h2, sub_eq_add_neg]
    · simp [h1, h2]

theorem braceValueScan_balanced (v : Chars) : ∀ (d : Int) (rest : Chars),
    1 ≤ d → d + bal v = 1 → minDepthOk d v = true →
    braceValueScan d (v ++ '\x7d' :: rest) = (v ++ ['\x7d'], rest) := by
  induction v with
  | nil =>
    intro d rest hd hsum hok
    simp only [bal] at hsum
    have hd1 : d = 1 := by omega
    subst hd1
    have h0 : braceValueScan (1 + braceDelta '\x7d') rest = ([], rest) :=
      braceValueScan_nonpos _ _ (by simp [braceDelta])
    rw [List.nil_append, braceValueScan, if_neg (by omega)]
    show ('\x7d' :: (braceValueScan
          (if '\x7d' = '\x7b' then 1 + 1 else if '\x7d' = '\x7d' then 1 - 1 else 1) rest).1,
        (braceValueScan
          (if '\x7d' = '\x7b' then 1 + 1 else if '\x7d' = '\x7d' then 1 - 1 else 1) rest).2) =
      ([] ++ ['\x7d'], rest)
    rw [braceStep_eq, h0]
    simp
  | cons c v' ih =>
    intro d rest hd hsum hok
    rw [minDepthOk] at hok
    simp only [Bool.and_eq_true, decide_eq_true_eq] at hok
    obtain ⟨hok1, hok2⟩ := hok
    have hih := ih (d + braceDelta c) rest hok1 (by rw [bal] at hsum; omega) hok2
    rw [List.cons_append, braceValueScan, if_neg (by omega)]
    show (c :: (braceValueScan (if c = '\x7b' then d + 1 else if c = '\x7d' then d - 1 else d)
          (v' ++ '\x7d' :: rest)).1,
        (braceValueScan (if c = '\x7b' then d + 1 else if c = '\x7d' then d - 1 else d)
          (v' ++ '\x7d' :: rest)).2) =
      (c :: v' ++ ['\x7d'], rest)
    rw [braceStep_eq, hih]
    simp

theorem dropWhile_eq_self_of_head {p : Char → Bool} {x : Chars}
    (h : ∀ c ∈ x.head?, p c = false) : x.dropWhile p = x := by
  match x with
  | [] => rfl
  | c :: rest =>
    rw [List.dropWhile_cons, if_neg (by simp [h c (by simp)])]

/-- `KEY_RE` applied to an entry of the shape `@misc{k,` ++ X: the key is
`k` and the remainder starts at the comma. -/
theorem keySearch_mk (X : Chars) :
    keySearch ('@' :: ("misc".data ++ '\x7b' :: 'k' :: ',' :: X)) = some (['k'], ',' :: X) := by
  have h1 : ("misc".data ++ '\x7b' :: 'k' :: ',' :: X).takeWhile isWordChar = "misc".data := by
    rw [takeWhile_append_all _ (by decide), List.takeWhile_cons, if_neg (by decide),
      List.append_nil]
  have h2 : ("misc".data ++ '\x7b' :: 'k' :: ',' :: X).dropWhile isWordChar =
      '\x7b' :: 'k' :: ',' :: X := by
    rw [dropWhile_append_all _ (by decide), List.dropWhile_cons, if_neg (by decide)]
  have h3 : ('\x7b' :: 'k' :: ',' :: X).dropWhile pyWs = '\x7b' :: 'k' :: ',' :: X := by
    rw [List.dropWhile_cons, if_neg (by decide)]
  have h4 : ('k' :: ',' :: X).dropWhile pyWs = 'k' :: ',' :: X := by
    rw [List.dropWhile_cons, if_neg (by decide)]
  have h5 : ('k' :: ',' :: X).takeWhile (fun x => !pyWs x && x ≠ ',') = ['k'] := by
    rw [List.takeWhile_cons, if_pos (by decide), List.takeWhile_cons, if_neg (by decide)]
  have h6 : ('k' :: ',' :: X).dropWhile (fun x => !pyWs x && x ≠ ',') = ',' :: X := by
    rw [List.dropWhile_cons, if_pos (by decide), List.dropWhile_cons, if_neg (by decide)]
  rw [keySearch]
  simp only [h1, h2, h3, h4, h5, h6]
  simp [Option.orElse]

/-- The entry text `@misc{k,` ++ ft ++ `}`, used to state the claims about
the field-value sub-parser. -/
def mkEntry (ft : Chars) : Chars :=
  '@' :: ("misc".data ++ '\x7b' :: 'k' :: ',' :: (ft ++ ['\x7d']))

/-- `parse_fields` on `@misc{k,` ++ ft ++ `}` (for a field text that starts
with a non-whitespace character) returns key `k` and hands exactly `ft` to
the field loop: the layers around the loop strip the text and drop the
final closing brace. -/
theorem parseFieldsL_mkEntry (ft : Chars) (hne : ft ≠ [])
    (hhead : ∀ c ∈ ft.head?, pyWs c = false) :
    parseFieldsL (mkEntry ft) = (some "k".data, parseFieldsAux ft []) := by
  unfold parseFieldsL mkEntry
  rw [keySearch_mk]
  have hd : ((',' :: (ft ++ ['\x7d'])).dropWhile (fun c => c ≠ ',')) = ',' :: (ft ++ ['\x7d']) := by
    rw [List.dropWhile_cons, if_neg (by decide)]
  have hlast : (ft ++ ['\x7d']).getLast? = some '\x7d' := List.getLast?_concat _
  have hstrip : pstrip (ft ++ ['\x7d']) = ft ++ ['\x7d'] := by
    apply pstrip_eq_self
    · intro c hc
      have he : (ft ++ ['\x7d']).head? = ft.head? := by
        match ft, hne with
        | f :: fs, _ => rfl
      rw [he] at hc
      exact hhead c hc
    · intro c hc
      rw [hlast] at hc
      simp only [Option.mem_def, Option.some.injEq] at hc
      subst hc
      decide
  simp only [hd, hstrip, hlast, List.dropLast_concat]
  simp [pstrip, lstrip, rstrip, pyWs]

/-- C1: on the example first-page text, the front-matter extractor returns
exactly title `Forecasting with Stretched Grids`, year `2025`, subject
class `cs.LG` (the first bracketed substring of the banner line, stored in
the `primary_class` field) and author `Jane A. Smith`; the year is the
first four-digit substring of the banner line beginning with 19 or 20. -/
theorem claim_C1 :
    extract_basic_metadata
      "arXiv:2507.18378v1 [cs.LG] 3 Jul 2025\nForecasting with Stretched Grids\n\nJane A. Smith\nUniversity of Example\n\nAbstract\n..." =
    { title := "Forecasting with Stretched Grids", author := "Jane A. Smith",
      year := "2025", primary_class := "cs.LG" } := by decide

def wsTokensAux : Chars → Chars → List Chars
  | acc, [] => if acc.isEmpty then [] else [acc.reverse]
  | acc, c :: rest =>
    if pyWs c then
      if acc.isEmpty then wsTokensAux [] rest else acc.reverse :: wsTokensAux [] rest
    else wsTokensAux (c :: acc) rest

/-- Whitespace-separated tokens of a line. -/
def wsTokens (l : Chars) : List Chars := wsTokensAux [] l

/-- The author-line shape of claim C2, phrased from the claim text (not
from the code): 2 to 4 whitespace-separated tokens, each starting with an
upper-case letter, none being an all-uppercase word longer than two
characters. -/
def claimedNameShape (l : Chars) : Bool :=
  let ts := wsTokens l
  decide (2 ≤ ts.length) && decide (ts.length ≤ 4) &&
    ts.all (fun w =>
      (match w with | [] => false | c :: _ => c.isUpper) &&
      !(pyIsUpper w && decide (2 < w.length)))

/-- C2 (code bug): the line `John Smith` is non-blank, is not an
affiliation line, has no comma and has the claimed capitalized-name shape,
and the following line `Plain line` does not look like an affiliation; the
claim then demands that `John Smith` be accepted as an author line, yet the
extractor returns the empty author string on this input.  The cause is in
the source: `name_pattern` (line 127) is a *raw* Python string containing
`\\w` and `\\s`, so its character class matches only the literal characters
backslash, `w`, apostrophe, dot and hyphen, and its separator matches a
literal backslash followed by letters `s`; ordinary capitalized names never
match it, and acceptance route (b) does not apply because the next line is
not an affiliation. -/
theorem claim_C2 :
    claimedNameShape "John Smith".data = true ∧
    looksLikeAffiliation (pstrip "Plain line".data) = false ∧
    namePatternMatch "John Smith".data = false ∧
    (extract_basic_metadata
      "arXiv:2507.18378v1 [cs.LG] 3 Jul 2025\nSome Title\n\nJohn Smith\nPlain line\n\nAbstract\n...").author
      = "" := by
  decide

/-- C4: the front-matter extractor is total: for every input string —
including the empty string — it returns a record whose four fields are
plain strings (absence is encoded as the empty string; the record type has
no optional or null-like field, and the embedding is a total function, so
no exception path exists). -/
theorem claim_C4 (text : String) :
    ∃ t a y c : String, extract_basic_metadata text = ⟨t, a, y, c⟩ :=
  ⟨_, _, _, _, rfl⟩

/-- The field loop on a single quoted field `title = "v"`: the value is
consumed up to the next `"` (the scan has no escape handling), trimmed, and
recorded under the lower-cased name. -/
theorem parseFieldsAux_quoted (v : Chars) (hv : '"' ∉ v) :
    parseFieldsAux ("title = \"".data ++ v ++ ['"']) [] = [("title".data, pstrip v)] := by
  have hv' : ∀ c ∈ v, (fun c => decide (c ≠ '"')) c = true := by
    intro c hc
    simp only [decide_eq_true_eq]
    intro h
    exact hv (h ▸ hc)
  have hE : "title = \"".data ++ v ++ ['"'] =
      "title ".data ++ '=' :: ' ' :: '"' :: (v ++ ['"']) := rfl
  rw [hE, parseFieldsAux_eq]
  unfold parseFieldsStep
  have a1 : ("title ".data ++ '=' :: ' ' :: '"' :: (v ++ ['"'])).dropWhile isFieldSep =
      "title ".data ++ '=' :: ' ' :: '"' :: (v ++ ['"']) :=
    dropWhile_eq_self_of_head (by intro c hc; simp only [Option.mem_def] at hc
                                  cases hc; decide)
  have a3 : ("title ".data ++ '=' :: ' ' :: '"' :: (v ++ ['"'])).takeWhile
      (fun c => c ≠ '=') = "title ".data := by
    rw [takeWhile_append_all _ (by decide), List.takeWhile_cons, if_neg (by decide),
      List.append_nil]
  have a4 : ("title ".data ++ '=' :: ' ' :: '"' :: (v ++ ['"'])).dropWhile
      (fun c => c ≠ '=') = '=' :: ' ' :: '"' :: (v ++ ['"']) := by
    rw [dropWhile_append_all _ (by decide), List.dropWhile_cons, if_neg (by decide)]
  have a7 : (' ' :: '"' :: (v ++ ['"'])).dropWhile isValueGapWs = '"' :: (v ++ ['"']) := by
    rw [List.dropWhile_cons, if_pos (by decide), List.dropWhile_cons, if_neg (by decide)]
  have a8 : (v ++ ['"']).takeWhile (fun c => c ≠ '"') = v := by
    rw [takeWhile_append_all _ hv', List.takeWhile_cons, if_neg (by decide), List.append_nil]
  have a9 : (v ++ ['"']).dropWhile (fun c => c ≠ '"') = ['"'] := by
    rw [dropWhile_append_all _ hv', List.dropWhile_cons, if_neg (by decide)]
  have a10 : ∀ acc, parseFieldsAux [] acc = acc := fun _ => rfl
  simp only [a1, a3, a4, a7, a8, a9]
  simp [postSkip, dictSet, a10, pstrip, lstrip, rstrip, toLowerL, lowerChar, pyWs]

/-- C3 counterexample: the quoted-value scan has no escape handling, so a
backslash-escaped quote inside the value terminates it.  On the entry
`@misc{k, title = "a \" b"}` the recorded value is `a \`, not the claimed
`a \" b`. -/
theorem claim_C3_counterexample :
    (parse_fields "@misc\x7bk, title = \"a \\\" b\"\x7d").2 = [("title", "a \\")] ∧
    ("a \\" : String) ≠ "a \" b" := by
  decide

/-- C3 (amended): a value opened by a double quote is consumed up to the
next double quote — whether escaped or not, since the scan has no escape
handling.  For every quote-free value text `v`, the entry
`@misc{k,title = "v"}` parses to the single field `title` ↦ `strip v`; in
particular a comma inside the quotes does not terminate the value. -/
theorem claim_C3 (v : Chars) (hv : '"' ∉ v) :
    parseFieldsL (mkEntry ("title = \"".data ++ v ++ ['"'])) =
      (some "k".data, [("title".data, pstrip v)]) := by
  have h0 : ("title = \"".data ++ v ++ ['"']).head? = some 't' := rfl
  rw [parseFieldsL_mkEntry _
      (by intro h; rw [h] at h0; simp at h0)
      (by intro c hc; rw [h0] at hc; simp only [Option.mem_def, Option.some.injEq] at hc
          subst hc; decide),
    parseFieldsAux_quoted v hv]

/-- C3 witness: `title = "Foo, Bar"` yields `fields["title"] = "Foo, Bar"`. -/
theorem claim_C3_witness :
    parseFieldsL (mkEntry ("title = \"".data ++ "Foo, Bar".data ++ ['"'])) =
      (some "k".data, [("title".data, pstrip "Foo, Bar".data)]) :=
  claim_C3 "Foo, Bar".data (by decide)

/-- The field loop on a single braced field `note = {v}` with a
brace-balanced value: the depth-aware scan consumes up to the matching
closing brace, and the value is the inner text trimmed, nested braces
preserved verbatim. -/
theorem parseFieldsAux_braced (v : Chars) (hbal : bal v = 0) (hok : minDepthOk 1 v = true) :
    parseFieldsAux ("note = \x7b".data ++ v ++ ['\x7d']) [] = [("note".data, pstrip v)] := by
  have hE : "note = \x7b".data ++ v ++ ['\x7d'] =
      "note ".data ++ '=' :: ' ' :: '\x7b' :: (v ++ ['\x7d']) := rfl
  rw [hE, parseFieldsAux_eq]
  unfold parseFieldsStep
  have a1 : ("note ".data ++ '=' :: ' ' :: '\x7b' :: (v ++ ['\x7d'])).dropWhile isFieldSep =
      "note ".data ++ '=' :: ' ' :: '\x7b' :: (v ++ ['\x7d']) :=
    dropWhile_eq_self_of_head (by intro c hc; simp only [Option.mem_def] at hc
                                  cases hc; decide)
  have a3 : ("note ".data ++ '=' :: ' ' :: '\x7b' :: (v ++ ['\x7d'])).takeWhile
      (fun c => c ≠ '=') = "note ".data := by
    rw [takeWhile_append_all _ (by decide), List.takeWhile_cons, if_neg (by decide),
      List.append_nil]
  have a4 : ("note ".data ++ '=' :: ' ' :: '\x7b' :: (v ++ ['\x7d'])).dropWhile
      (fun c => c ≠ '=') = '=' :: ' ' :: '\x7b' :: (v ++ ['\x7d']) := by
    rw [dropWhile_append_all _ (by decide), List.dropWhile_cons, if_neg (by decide)]
  have a7 : (' ' :: '\x7b' :: (v ++ ['\x7d'])).dropWhile isValueGapWs =
      '\x7b' :: (v ++ ['\x7d']) := by
    rw [List.dropWhile_cons, if_pos (by decide), List.dropWhile_cons, if_neg (by decide)]
  have hbv : braceValueScan 1 (v ++ '\x7d' :: []) = (v ++ ['\x7d'], []) :=
    braceValueScan_balanced v 1 [] (by omega) (by omega) hok
  have a10 : ∀ acc, parseFieldsAux [] acc = acc := fun _ => rfl
  simp only [a1, a3, a4, a7]
  simp only [show (v ++ ['\x7d'] : Chars) = v ++ '\x7d' :: [] from rfl, hbv]
  simp [postSkip, dictSet, a10, List.dropLast_concat, pstrip, lstrip, rstrip,
    toLowerL, lowerChar, pyWs]

/-- C6: a value opened by `{` is scanned with brace-depth tracking up to
the matching `}` at depth 0; the value is the inner text trimmed, and
nested braces inside the value are preserved verbatim: for every
brace-balanced value text `v`, `@misc{k,note = {v}}` parses to the single
field `note` ↦ `strip v`. -/
theorem claim_C6 (v : Chars) (hbal : bal v = 0) (hok : minDepthOk 1 v = true) :
    parseFieldsL (mkEntry ("note = \x7b".data ++ v ++ ['\x7d'])) =
      (some "k".data, [("note".data, pstrip v)]) := by
  have h0 : ("note = \x7b".data ++ v ++ ['\x7d']).head? = some 'n' := rfl
  rw [parseFieldsL_mkEntry _
      (by intro h; rw [h] at h0; simp at h0)
      (by intro c hc; rw [h0] at hc; simp only [Option.mem_def, Option.some.injEq] at hc
          subst hc; decide),
    parseFieldsAux_braced v hbal hok]

/-- C6 witness: input `note = {A {nested} value}` yields
`fields["note"] = "A {nested} value"`. -/
theorem claim_C6_witness :
    parseFieldsL (mkEntry ("note = \x7b".data ++ "A \x7bnested\x7d value".data ++ ['\x7d'])) =
      (some "k".data, [("note".data, "A \x7bnested\x7d value".data)]) :=
  claim_C6 "A \x7bnested\x7d value".data (by decide) (by decide)

/-- When the depth never returns to zero, the entry brace scan reports
failure. -/
theorem braceScan_none (s : Chars) : ∀ d : Int, minDepthOk d s = true → braceScan d s = none := by
  induction s with
  | nil => intro d _; rfl
  | cons c rest ih =>
    intro d hok
    rw [minDepthOk] at hok
    simp only [Bool.and_eq_true, decide_eq_true_eq] at hok
    obtain ⟨h1, h2⟩ := hok
    rw [braceScan]
    by_cases hc1 : c = '\x7b'
    · subst hc1
      have h2' : minDepthOk (d + 1) rest = true := by simpa [braceDelta] using h2
      simp [ih _ h2']
    · by_cases hc2 : c = '\x7d'
      · subst hc2
        have hd1 : ¬d = 1 := by
          simp [braceDelta] at h1
          omega
        have h2' : minDepthOk (d - 1) rest = true := by
          simp only [braceDelta] at h2
          simp at h2
          rwa [sub_eq_add_neg]
        simp [hd1, ih _ h2']
      · have h2' : minDepthOk d rest = true := by simpa [braceDelta, hc1, hc2] using h2
        simp [hc1, hc2, ih _ h2']

/-- C7: when `scanEntries` finds an `@word{` match whose brace depth never
returns to zero before the end of the text, it stops scanning at that
point: no partial entry is emitted for it and nothing after it is scanned
(entries occurring later in the text are also excluded).  Stated for a
text beginning at such a match: `@` ++ w ++ `{` ++ v, where the depth of
`{` ++ v never returns to zero. -/
theorem claim_C7 (w v : Chars) (hw : w ≠ []) (hwc : ∀ c ∈ w, isWordChar c = true)
    (hnc : minDepthOk 0 ('\x7b' :: v) = true) :
    extractEntriesAux ('@' :: (w ++ '\x7b' :: v)) = [] := by
  have t1 : (w ++ '\x7b' :: v).takeWhile isWordChar = w := by
    rw [takeWhile_append_all _ (fun c hc => hwc c hc), List.takeWhile_cons,
      if_neg (by decide), List.append_nil]
  have t2 : (w ++ '\x7b' :: v).dropWhile isWordChar = '\x7b' :: v := by
    rw [dropWhile_append_all _ (fun c hc => hwc c hc), List.dropWhile_cons,
      if_neg (by decide)]
  have t3 : ('\x7b' :: v).dropWhile pyWs = '\x7b' :: v := by
    rw [List.dropWhile_cons, if_neg (by decide)]
  have t4 : ('\x7b' :: v).takeWhile pyWs = [] := by
    rw [List.takeWhile_cons, if_neg (by decide)]
  have hwne : w.isEmpty = false := by
    cases w with
    | nil => exact absurd rfl hw
    | cons a as => rfl
  have hm : matchEntryStart ('@' :: (w ++ '\x7b' :: v)) =
      some ('@' :: (w ++ []), '\x7b' :: v) := by
    simp only [matchEntryStart, t1, t2, t3, t4, hwne]
    simp
  rw [extractEntriesAux_eq]
  simp only [extractEntriesStep, hm, braceScan_none ('\x7b' :: v) 0 hnc]

/-! ### Shape invariants of the field loop -/

/-- Shape of every field name the loop records: non-empty, free of `=`,
already stripped and already lower-cased. -/
def goodName (n : Chars) : Prop :=
  n ≠ [] ∧ '=' ∉ n ∧ pstrip n = n ∧ toLowerL n = n

/-- Shape of every field value the loop records: already stripped. -/
def goodValue (v : Chars) : Prop := pstrip v = v

theorem dictSet_forall {Pk Pv : Chars → Prop} {m : List (Chars × Chars)} {k v : Chars}
    (hm : ∀ p ∈ m, Pk p.1 ∧ Pv p.2) (hk : Pk k) (hv : Pv v) :
    ∀ p ∈ dictSet m k v, Pk p.1 ∧ Pv p.2 := by
  induction m with
  | nil =>
    intro p hp
    simp only [dictSet, List.mem_singleton] at hp
    subst hp
    exact ⟨hk, hv⟩
  | cons q rest ih =>
    obtain ⟨k', v'⟩ := q
    intro p hp
    simp only [dictSet] at hp
    by_cases hkk : k' = k
    · rw [if_pos hkk] at hp
      rcases List.mem_cons.mp hp with hp | hp
      · subst hp
        exact ⟨(hm (k', v') (by simp)).1, hv⟩
      · exact hm p (by simp [hp])
    · rw [if_neg hkk] at hp
      rcases List.mem_cons.mp hp with hp | hp
      · subst hp
        exact hm (k', v') (by simp)
      · exact ih (fun q hq => hm q (by simp [hq])) p hp

theorem lowerChar_preimage {c d : Char} (hd : d.toNat < 97) (h : lowerChar c = d) : c = d := by
  by_cases hc : 65 ≤ c.toNat ∧ c.toNat ≤ 90
  · have := lowerChar_toNat_of_upper c hc
    rw [h] at this
    omega
  · rwa [lowerChar_fix c hc] at h

theorem pstrip_subset (l : Chars) : pstrip l ⊆ l := by
  intro c hc
  have h1 : c ∈ rstrip l := List.dropWhile_subset _ hc
  unfold rstrip at h1
  rw [List.mem_reverse] at h1
  exact List.mem_reverse.mp (List.dropWhile_subset _ h1)

/-- Any name recorded by one loop iteration satisfies `goodName`. -/
theorem goodName_of_keyRaw (s1 : Chars)
    (hfk : ¬(toLowerL (pstrip (s1.takeWhile (fun c => c ≠ '=')))).isEmpty = true) :
    goodName (toLowerL (pstrip (s1.takeWhile (fun c => c ≠ '=')))) := by
  refine ⟨fun h => hfk (by rw [h]; rfl), ?_, ?_, ?_⟩
  · intro hmem
    rw [toLowerL] at hmem
    obtain ⟨c, hc, hlc⟩ := List.mem_map.mp hmem
    have hc' : c = '=' := lowerChar_preimage (by decide) hlc
    subst hc'
    have := List.mem_takeWhile_imp (pstrip_subset _ hc)
    simp at this
  · rw [pstrip_toLowerL, pstrip_idem]
  · exact toLowerL_idem _

/-- Invariant of the fuelled field loop: every recorded pair has a
`goodName` name and a `goodValue` value. -/
theorem parseFieldsGo_shape (fuel : Nat) :
    ∀ (s : Chars) (acc : List (Chars × Chars)),
      (∀ p ∈ acc, goodName p.1 ∧ goodValue p.2) →
      ∀ p ∈ parseFieldsGo fuel s acc, goodName p.1 ∧ goodValue p.2 := by
  induction fuel with
  | zero => intro s acc hacc; exact hacc
  | succ fuel ih =>
    intro s acc hacc
    show ∀ p ∈ parseFieldsStep (parseFieldsGo fuel) s acc, _
    simp only [parseFieldsStep]
    split
    · exact hacc
    · split
      · exact hacc
      · rename_i hne hfk
        have hgn := goodName_of_keyRaw (s.dropWhile isFieldSep) hfk
        split
        · exact hacc
        · split
          · exact hacc
          · split
            · exact ih _ _ (dictSet_forall hacc hgn (pstrip_idem _))
            · split
              · exact ih _ _ (dictSet_forall hacc hgn (pstrip_idem _))
              · exact ih _ _ (dictSet_forall hacc hgn (pstrip_idem _))

/-- Every pair in the mapping returned by `parse_fields` has a stripped,
lower-cased, `=`-free, non-empty name and a stripped value. -/
theorem parseFieldsL_shape (e : Chars) :
    ∀ p ∈ (parseFieldsL e).2, goodName p.1 ∧ goodValue p.2 := by
  unfold parseFieldsL
  rcases hks : keySearch e with _ | ⟨k, ak⟩
  · simp
  · simp only
    rcases hdw : ak.dropWhile (fun c => c ≠ ',') with _ | ⟨x, ac⟩
    · simp
    · simp only
      exact parseFieldsGo_shape _ _ [] (by simp)

/-- C7 witness: a truncated entry whose closing brace is missing — even one
containing a complete inner brace group and a later `@`-like text — yields
no entries at all. -/
theorem claim_C7_witness :
    extractEntriesAux ('@' :: ("misc".data ++ '\x7b' :: "a,x = \x7b1\x7d".data)) = [] :=
  claim_C7 "misc".data "a,x = \x7b1\x7d".data (by decide) (by decide) (by decide)

/-- C9: in the field mapping returned by `parse_fields`, every field name
is stored lower-cased (lower-casing it again changes nothing, so two names
differing only in case collide), and when the same name appears twice in
one entry the recorded value is the last occurrence's value, with no
duplicate diagnostic: `Title = {A}, TITLE = {B}` yields exactly
`title ↦ B`. -/
theorem claim_C9 :
    (∀ (e : Chars), ∀ p ∈ (parseFieldsL e).2, toLowerL p.1 = p.1) ∧
    (parse_fields "@misc\x7bk, Title = \x7bA\x7d, TITLE = \x7bB\x7d\x7d").2 =
      [("title", "B")] := by
  constructor
  · intro e p hp
    exact ((parseFieldsL_shape e p hp).1).2.2.2
  · decide

/-- C9 witness: the invariant applied to a concrete parsed entry. -/
theorem claim_C9_witness : toLowerL "q".data = "q".data :=
  claim_C9.1 "@misc\x7bk,Q = \x7b1\x7d\x7d".data ("q".data, "1".data) (by decide)

/-! ### Shape of the entries produced by the entry scanner -/

/-- A successful `ENTRY_START_RE` match splits its input: the consumed part
is `@` + a non-empty word-character run + a whitespace run, and the
remainder starts at the `{`. -/
theorem matchEntryStart_spec (s pre fb : Chars) (h : matchEntryStart s = some (pre, fb)) :
    s = pre ++ fb ∧
      (∃ w sp, pre = '@' :: (w ++ sp) ∧ w ≠ [] ∧ (∀ c ∈ w, isWordChar c = true) ∧
        (∀ c ∈ sp, pyWs c = true)) ∧
      fb.head? = some '\x7b' := by
  match s with
  | [] => simp [matchEntryStart] at h
  | c :: rest =>
    simp only [matchEntryStart] at h
    split at h
    · rename_i hc
      split at h
      · simp at h
      · rename_i hwne
        split at h
        · rename_i hbr
          simp only [Option.some.injEq, Prod.mk.injEq] at h
          obtain ⟨hpre, hfb⟩ := h
          subst hc
          refine ⟨?_, ⟨rest.takeWhile isWordChar, (rest.dropWhile isWordChar).takeWhile pyWs,
            hpre.symm, ?_, ?_, ?_⟩, ?_⟩
          · rw [← hpre, ← hfb]
            show '@' :: rest = '@' :: (_ ++ _ ++ _)
            rw [List.append_assoc, List.takeWhile_append_dropWhile,
              List.takeWhile_append_dropWhile]
          · intro hw
            rw [hw] at hwne
            exact hwne rfl
          · exact fun c hc => List.mem_takeWhile_imp hc
          · exact fun c hc => List.mem_takeWhile_imp hc
          · rw [← hfb]; exact hbr
        · simp at h
    · simp at h

/-- Master lemma for the entry brace scan, started at positive depth: the
consumed text ends at the first `}` that returns the depth to zero, and the
depth stays positive strictly inside it. -/
theorem braceScan_spec (l : Chars) : ∀ (d : Int) (t r : Chars), 1 ≤ d →
    braceScan d l = some (t, r) →
    l = t ++ r ∧ t ≠ [] ∧ t.getLast? = some '\x7d' ∧ d + bal t = 0 ∧
      ∀ p, p <+: t → p ≠ [] → p ≠ t → 1 ≤ d + bal p := by
  induction l with
  | nil => intro d t r _ h; simp [braceScan] at h
  | cons c rest ih =>
    intro d t r hd h
    rw [braceScan] at h
    by_cases hc1 : c = '\x7b'
    · subst hc1
      rw [if_pos rfl, Option.map_eq_some'] at h
      obtain ⟨⟨t', r'⟩, hb, hinj⟩ := h
      simp only [Prod.mk.injEq] at hinj
      obtain ⟨ht, hr⟩ := hinj
      subst ht; subst hr
      obtain ⟨hl, hne, hlast, hbal, hpre⟩ := ih (d + 1) t' r' (by omega) hb
      refine ⟨by rw [List.cons_append, ← hl], by simp, ?_, ?_, ?_⟩
      · rw [getLast?_of_suffix (show t' <:+ '\x7b' :: t' from ⟨['\x7b'], rfl⟩) hne]
        exact hlast
      · have : bal ('\x7b' :: t') = 1 + bal t' := by simp [bal, braceDelta]
        omega
      · intro p hp hpne hpt
        rcases List.prefix_cons_iff.mp hp with hp0 | ⟨p', hp', hp'pre⟩
        · exact absurd hp0 hpne
        · subst hp'
          have hbp : bal ('\x7b' :: p') = 1 + bal p' := by simp [bal, braceDelta]
          by_cases hp'' : p' = []
          · subst hp''
            simp [bal, braceDelta]
            omega
          · have := hpre p' hp'pre hp'' (fun he => hpt (by rw [he]))
            omega
    · by_cases hc2 : c = '\x7d'
      · subst hc2
        rw [if_neg (by decide), if_pos rfl] at h
        by_cases hd1 : d = 1
        · rw [if_pos hd1] at h
          simp only [Option.some.injEq, Prod.mk.injEq] at h
          obtain ⟨ht, hr⟩ := h
          subst ht; subst hr
          refine ⟨rfl, by simp, rfl, by simp [bal, braceDelta]; omega, ?_⟩
          intro p hp hpne hpt
          rcases List.prefix_cons_iff.mp hp with hp0 | ⟨p', hp', hp'pre⟩
          · exact absurd hp0 hpne
          · subst hp'
            rw [List.prefix_nil] at hp'pre
            subst hp'pre
            exact absurd rfl hpt
        · rw [if_neg hd1, Option.map_eq_some'] at h
          obtain ⟨⟨t', r'⟩, hb, hinj⟩ := h
          simp only [Prod.mk.injEq] at hinj
          obtain ⟨ht, hr⟩ := hinj
          subst ht; subst hr
          obtain ⟨hl, hne, hlast, hbal, hpre⟩ := ih (d - 1) t' r' (by omega) hb
          refine ⟨by rw [List.cons_append, ← hl], by simp, ?_, ?_, ?_⟩
          · rw [getLast?_of_suffix (show t' <:+ '\x7d' :: t' from ⟨['\x7d'], rfl⟩) hne]
            exact hlast
          · have : bal ('\x7d' :: t') = -1 + bal t' := by simp [bal, braceDelta]
            omega
          · intro p hp hpne hpt
            rcases List.prefix_cons_iff.mp hp with hp0 | ⟨p', hp', hp'pre⟩
            · exact absurd hp0 hpne
            · subst hp'
              have hbp : bal ('\x7d' :: p') = -1 + bal p' := by simp [bal, braceDelta]
              by_cases hp'' : p' = []
              · subst hp''
                simp [bal, braceDelta]
                omega
              · have := hpre p' hp'pre hp'' (fun he => hpt (by rw [he]))
                omega
      · rw [if_neg hc1, if_neg hc2, Option.map_eq_some'] at h
        obtain ⟨⟨t', r'⟩, hb, hinj⟩ := h
        simp only [Prod.mk.injEq] at hinj
        obtain ⟨ht, hr⟩ := hinj
        subst ht; subst hr
        obtain ⟨hl, hne, hlast, hbal, hpre⟩ := ih d t' r' hd hb
        refine ⟨by rw [List.cons_append, ← hl], by simp, ?_, ?_, ?_⟩
        · rw [getLast?_of_suffix (show t' <:+ c :: t' from ⟨[c], rfl⟩) hne]
          exact hlast
        · have : bal (c :: t') = 0 + bal t' := by simp [bal, braceDelta, hc1, hc2]
          omega
        · intro p hp hpne hpt
          rcases List.prefix_cons_iff.mp hp with hp0 | ⟨p', hp', hp'pre⟩
          · exact absurd hp0 hpne
          · subst hp'
            have hbp : bal (c :: p') = 0 + bal p' := by simp [bal, braceDelta, hc1, hc2]
            by_cases hp'' : p' = []
            · subst hp''
              simp [bal, braceDelta, hc1, hc2]
              omega
            · have := hpre p' hp'pre hp'' (fun he => hpt (by rw [he]))
              omega

/-- The shape claim C10 asserts of every returned entry: it begins with `@`
followed by a non-empty run of word characters, optional whitespace and a
`{`; it ends with a `}`; and from its first `{` the brace depth stays
positive strictly inside and returns to zero exactly at its final
character. -/
def entryShape (e : Chars) : Prop :=
  ∃ w sp body, e = '@' :: (w ++ sp ++ body) ∧ w ≠ [] ∧
    (∀ c ∈ w, isWordChar c = true) ∧ (∀ c ∈ sp, pyWs c = true) ∧
    body ≠ [] ∧ body.head? = some '\x7b' ∧ body.getLast? = some '\x7d' ∧
    bal body = 0 ∧ ∀ p, p <+: body → p ≠ [] → p ≠ body → 1 ≤ bal p

/-- Reassemble gaps and entries: `gaps` has one more element than
`entries`, and the original text is gap, entry, gap, entry, …, gap.  This
encodes that the entries are contiguous substrings of the text, pairwise
non-overlapping and in order of their start positions. -/
def glue : List Chars → List Chars → Chars
  | g :: gs, e :: es => g ++ e ++ glue gs es
  | g :: _, [] => g
  | [], _ => []

theorem glue_cons_gap (c : Char) (g : Chars) (gs es : List Chars) :
    glue ((c :: g) :: gs) es = c :: glue (g :: gs) es := by
  cases es <;> simp [glue]

/-- An entry produced by one successful match-plus-scan has the claimed
shape. -/
theorem entryShape_of_match (s pre fb body after : Chars)
    (hm : matchEntryStart s = some (pre, fb))
    (hb : braceScan 0 fb = some (body, after)) :
    entryShape (pre ++ body) ∧ s = (pre ++ body) ++ after := by
  obtain ⟨hs, ⟨w, sp, hpre, hw, hwc, hsp⟩, hhead⟩ := matchEntryStart_spec s pre fb hm
  rcases fb with _ | ⟨c0, v⟩
  · simp at hhead
  · have hc0 : c0 = '\x7b' := by simpa using hhead
    subst hc0
    rw [braceScan, if_pos rfl, Option.map_eq_some'] at hb
    obtain ⟨⟨t', r'⟩, hb', hinj⟩ := hb
    simp only [Prod.mk.injEq] at hinj
    obtain ⟨ht, hr⟩ := hinj
    subst ht; subst hr
    obtain ⟨hv, hne, hlast, hbal, hpre'⟩ := braceScan_spec v 1 t' r' (by omega) hb'
    constructor
    · refine ⟨w, sp, '\x7b' :: t', ?_, hw, hwc, hsp, by simp, rfl, ?_, ?_, ?_⟩
      · rw [hpre]
        simp
      · rw [getLast?_of_suffix (show t' <:+ '\x7b' :: t' from ⟨['\x7b'], rfl⟩) hne]
        exact hlast
      · have : bal ('\x7b' :: t') = 1 + bal t' := by simp [bal, braceDelta]
        omega
      · intro p hp hpne hpt
        rcases List.prefix_cons_iff.mp hp with hp0 | ⟨p', hp', hp'pre⟩
        · exact absurd hp0 hpne
        · subst hp'
          have hbp : bal ('\x7b' :: p') = 1 + bal p' := by simp [bal, braceDelta]
          by_cases hp'' : p' = []
          · subst hp''
            simp [bal, braceDelta]
          · have := hpre' p' hp'pre hp'' (fun he => hpt (by rw [he]))
            omega
    · rw [hs, hv]
      simp

/-- Fuelled form of claim C10. -/
theorem extractEntriesGo_spec (fuel : Nat) : ∀ s : Chars, s.length < fuel →
    ∃ gaps : List Chars, gaps.length = (extractEntriesGo fuel s).length + 1 ∧
      glue gaps (extractEntriesGo fuel s) = s ∧
      ∀ e ∈ extractEntriesGo fuel s, entryShape e := by
  induction fuel with
  | zero => intro s h; omega
  | succ fuel ih =>
    intro s hlen
    show ∃ gaps, gaps.length = (extractEntriesStep (extractEntriesGo fuel) s).length + 1 ∧
      glue gaps (extractEntriesStep (extractEntriesGo fuel) s) = s ∧
      ∀ e ∈ extractEntriesStep (extractEntriesGo fuel) s, entryShape e
    match s, hlen with
    | [], _ => exact ⟨[[]], rfl, rfl, by simp [extractEntriesStep]⟩
    | c :: rest, hlen =>
      rcases hm : matchEntryStart (c :: rest) with _ | ⟨pre, fb⟩
      · simp only [extractEntriesStep, hm]
        obtain ⟨gaps, hglen, hglue, hshape⟩ := ih rest (by simp at hlen; omega)
        match gaps, hglen with
        | g :: gs, hglen =>
          exact ⟨(c :: g) :: gs, by simpa using hglen,
            by rw [glue_cons_gap, hglue], hshape⟩
      · rcases hb : braceScan 0 fb with _ | ⟨body, after⟩
        · simp only [extractEntriesStep, hm, hb]
          exact ⟨[c :: rest], rfl, rfl, by simp⟩
        · simp only [extractEntriesStep, hm, hb]
          obtain ⟨hshape, hsplit⟩ := entryShape_of_match (c :: rest) pre fb body after hm hb
          have hafter : after.length < fuel := by
            have h1 := braceScan_length_lt 0 fb body after hb
            have h2 := matchEntryStart_length_lt (c :: rest) pre fb hm
            simp at hlen h2
            omega
          obtain ⟨gaps, hglen, hglue, hshapes⟩ := ih after hafter
          refine ⟨[] :: gaps, by simpa using hglen, ?_, ?_⟩
          · show [] ++ (pre ++ body) ++ glue gaps (extractEntriesGo fuel after) = c :: rest
            rw [List.nil_append, hglue, hsplit]
          · intro e he
            rcases List.mem_cons.mp he with he | he
            · subst he
              exact hshape
            · exact hshapes e he

/-- C10: every string returned by `extract_entries` is a contiguous
substring of the input beginning with `@`, word characters, optional
whitespace and `{`, ending with `}`, with the brace depth first returning
to zero exactly at its final `}`; and the returned entries are pairwise
non-overlapping and listed in order of their start positions — witnessed
by a gap decomposition of the input text. -/
theorem claim_C10 (text : Chars) :
    ∃ gaps : List Chars, gaps.length = (extractEntriesAux text).length + 1 ∧
      glue gaps (extractEntriesAux text) = text ∧
      ∀ e ∈ extractEntriesAux text, entryShape e :=
  extractEntriesGo_spec (text.length + 1) text (by omega)

/-! ### Word-level view of the recovered title -/

theorem wsTokensAux_all_ws (sp : Chars) (h : ∀ c ∈ sp, pyWs c = true) :
    ∀ cur, wsTokensAux cur sp = wsTokensAux cur [] := by
  induction sp with
  | nil => intro cur; rfl
  | cons c rest ih =>
    intro cur
    have hih := ih (fun c hc => h c (by simp [hc]))
    by_cases hcur : cur.isEmpty <;>
      simp [wsTokensAux, h c (by simp), hcur, hih []]

theorem wsTokensAux_append_ws (x : Chars) : ∀ (sp : Chars), (∀ c ∈ sp, pyWs c = true) →
    ∀ cur, wsTokensAux cur (x ++ sp) = wsTokensAux cur x := by
  induction x with
  | nil => intro sp h cur; exact wsTokensAux_all_ws sp h cur
  | cons c rest ih =>
    intro sp h cur
    rw [List.cons_append]
    by_cases hc : pyWs c
    · by_cases hcur : cur.isEmpty <;> simp [wsTokensAux, hc, hcur, ih sp h []]
    · simp [wsTokensAux, hc, ih sp h (c :: cur)]

theorem wsTokensAux_split (a : Chars) : ∀ (cur : Chars) (c : Char) (b : Chars),
    pyWs c = true →
    wsTokensAux cur (a ++ c :: b) = wsTokensAux cur a ++ wsTokensAux [] b := by
  induction a with
  | nil =>
    intro cur c b hc
    by_cases hcur : cur.isEmpty <;> simp [wsTokensAux, hc, hcur]
  | cons x xs ih =>
    intro cur c b hc
    rw [List.cons_append]
    by_cases hx : pyWs x
    · by_cases hcur : cur.isEmpty <;> simp [wsTokensAux, hx, hcur, ih [] c b hc]
    · simp [wsTokensAux, hx, ih (x :: cur) c b hc]

theorem wsTokens_lstrip (l : Chars) : wsTokensAux [] (l.dropWhile pyWs) = wsTokensAux [] l := by
  induction l with
  | nil => rfl
  | cons c rest ih =>
    by_cases hc : pyWs c
    · rw [List.dropWhile_cons, if_pos hc, ih]
      simp [wsTokensAux, hc]
    · rw [List.dropWhile_cons, if_neg (by simp [hc])]

theorem rstrip_decomp (l : Chars) : rstrip l ++ (l.reverse.takeWhile pyWs).reverse = l := by
  unfold rstrip
  rw [← List.reverse_append, List.takeWhile_append_dropWhile, List.reverse_reverse]

theorem wsTokens_rstrip (l : Chars) : wsTokensAux [] (rstrip l) = wsTokensAux [] l := by
  conv_rhs => rw [← rstrip_decomp l]
  rw [wsTokensAux_append_ws (rstrip l) _
    (fun c hc => List.mem_takeWhile_imp (List.mem_reverse.mp hc)) []]

theorem wsTokens_pstrip (l : Chars) : wsTokensAux [] (pstrip l) = wsTokensAux [] l := by
  show wsTokensAux [] ((rstrip l).dropWhile pyWs) = _
  rw [wsTokens_lstrip, wsTokens_rstrip]

theorem wsTokens_replaceDouble (s : Chars) :
    ∀ cur, wsTokensAux cur (replaceDouble s) = wsTokensAux cur s := by
  induction s using replaceDouble.induct with
  | case1 => intro cur; rfl
  | case2 c => intro cur; rfl
  | case3 c1 c2 rest h ih =>
    obtain ⟨h1, h2⟩ := h
    subst h1; subst h2
    intro cur
    rw [replaceDouble, if_pos ⟨rfl, rfl⟩]
    by_cases hcur : cur.isEmpty <;>
      simp [wsTokensAux, hcur, show pyWs ' ' = true from rfl, ih []]
  | case4 c1 c2 rest h ih =>
    intro cur
    rw [replaceDouble, if_neg h]
    by_cases hc : pyWs c1
    · by_cases hcur : cur.isEmpty <;> simp [wsTokensAux, hc, hcur, ih []]
    · simp [wsTokensAux, hc, ih (c1 :: cur)]

theorem wsTokens_join (ls : List Chars) :
    wsTokensAux [] (joinWith [' '] ls) = ls.flatMap (fun l => wsTokensAux [] l) := by
  match ls with
  | [] => rfl
  | [l] => simp [joinWith]
  | l :: l' :: ls =>
    rw [joinWith, List.append_assoc, List.singleton_append, wsTokensAux_split l [] ' ' _ rfl,
      wsTokens_join (l' :: ls)]
    simp [List.flatMap_cons]

/-- The header block of the front-matter extractor: at most the first 80
(rstripped) lines, cut before the first line starting (case-insensitively,
after stripping) with `abstract`. -/
def headerOf (text : String) : List Chars :=
  (headerScanAux (((splitlines text.data).map rstrip).take 80) [] []).1

/-- A line that is not the arXiv banner. -/
def nonBanner (l : Chars) : Bool := !startsWith "arXiv:".data (pstrip l)

/-- A blank line (blank after stripping). -/
def blankL (l : Chars) : Bool := (pstrip l).isEmpty

/-- The title block claimed by C8: among the non-banner header lines, the
lines from the first non-blank one up to the first subsequent blank one. -/
def titleSegment (hls : List Chars) : List Chars :=
  ((hls.filter nonBanner).dropWhile blankL).takeWhile (fun l => !blankL l)

/-- The claimed title: the title-block lines joined with single spaces
(whitespace normalization is applied on both sides of C8). -/
def claimTitle (text : String) : Chars := joinWith [' '] (titleSegment (headerOf text))

theorem titleScanAux_started (ls : List Chars) : ∀ idx tei,
    (titleScanAux idx true tei ls).1 =
      ((ls.filter nonBanner).takeWhile (fun l => !blankL l)).map pstrip := by
  induction ls with
  | nil => intro idx tei; rfl
  | cons line rest ih =>
    intro idx tei
    rw [titleScanAux]
    by_cases hb : startsWith "arXiv:".data (pstrip line)
    · rw [if_pos hb, ih]
      simp [List.filter_cons, nonBanner, hb]
    · rw [if_neg hb]
      by_cases he : (pstrip line).isEmpty
      · rw [if_pos he]
        simp [List.filter_cons, nonBanner, hb, blankL, he, List.takeWhile_cons]
      · rw [if_neg he]
        show pstrip line :: (titleScanAux (idx + 1) true idx rest).1 = _
        rw [ih]
        simp [List.filter_cons, nonBanner, hb, blankL, he, List.takeWhile_cons]

theorem titleScanAux_unstarted (ls : List Chars) : ∀ idx tei,
    (titleScanAux idx false tei ls).1 = (titleSegment ls).map pstrip := by
  induction ls with
  | nil => intro idx tei; rfl
  | cons line rest ih =>
    intro idx tei
    rw [titleScanAux]
    by_cases hb : startsWith "arXiv:".data (pstrip line)
    · rw [if_pos hb, ih]
      simp [titleSegment, List.filter_cons, nonBanner, hb]
    · rw [if_neg hb]
      by_cases he : (pstrip line).isEmpty
      · rw [if_pos he, ih]
        simp [titleSegment, List.filter_cons, nonBanner, hb, blankL, he,
          List.dropWhile_cons]
      · rw [if_neg he]
        show pstrip line :: (titleScanAux (idx + 1) true idx rest).1 = _
        rw [titleScanAux_started]
        simp [titleSegment, List.filter_cons, nonBanner, hb, blankL, he,
          List.dropWhile_cons, List.takeWhile_cons]

/-- C8: for every input, the title recovered by the extractor agrees, word
for word (equality modulo whitespace normalization), with the claimed
title: the non-banner header lines from the first non-blank line up to the
first subsequent blank line, joined with single spaces; and when no such
non-blank line exists the title is the empty string. -/
theorem claim_C8 (text : String) :
    wsTokens ((extract_basic_metadata text).title.data) = wsTokens (claimTitle text) ∧
    (titleSegment (headerOf text) = [] → (extract_basic_metadata text).title = "") := by
  have htitle : (extract_basic_metadata text).title.data =
      pstrip (replaceDouble (joinWith [' ']
        ((titleScanAux 0 false 0 (headerOf text)).1))) := rfl
  constructor
  · show wsTokensAux [] _ = wsTokensAux [] _
    rw [htitle, titleScanAux_unstarted, wsTokens_pstrip, wsTokens_replaceDouble,
      claimTitle, wsTokens_join, wsTokens_join, List.flatMap_map]
    simp only [wsTokens_pstrip]
  · intro h
    have h2 : (extract_basic_metadata text).title =
        (pstrip (replaceDouble (joinWith [' ']
          ((titleScanAux 0 false 0 (headerOf text)).1)))).asString := rfl
    rw [h2, titleScanAux_unstarted, h]
    rfl

/-! ### Round trip of the field mapping (claim C5) -/

/-- One serialized field `name = {value},`, followed by the rest of the
serialization. -/
def fieldChunk (n v R : Chars) : Chars :=
  n ++ ' ' :: '=' :: ' ' :: '\x7b' :: (v ++ '\x7d' :: ',' :: R)

/-- Serialization of a field mapping as `name = {value}` pairs (claim C5). -/
def chunks : List (Chars × Chars) → Chars
  | [] => []
  | (n, v) :: fs => fieldChunk n v (chunks fs)

theorem isFieldSep_false_of (c : Char) (h1 : pyWs c = false) (h2 : c ≠ ',') :
    isFieldSep c = false := by
  unfold pyWs at h1
  simp only [Bool.or_eq_false_iff, decide_eq_false_iff_not] at h1
  simp [isFieldSep, h1.1.1.1.1.1, h1.1.1.1.1.2, h1.1.1.1.2, h1.1.1.2, h2]

theorem pstrip_append_space (x : Chars) : pstrip (x ++ [' ']) = pstrip x := by
  unfold pstrip rstrip
  rw [List.reverse_append, show ([' '] : Chars).reverse = [' '] from rfl,
    List.singleton_append, List.dropWhile_cons, if_pos (by decide)]

/-- The field loop consumes one serialized chunk, records the field, and
continues on the rest with the updated dict. -/
theorem parseFieldsAux_chunk (n v R : Chars) (acc : List (Chars × Chars))
    (hn : goodName n) (hnc : n.head? ≠ some ',')
    (hv : goodValue v) (hbal : bal v = 0) (hok : minDepthOk 1 v = true) :
    parseFieldsAux (fieldChunk n v R) acc = parseFieldsAux R (dictSet acc n v) := by
  obtain ⟨hne, heq, hstr, hlow⟩ := hn
  have hnws : ∀ c ∈ n.head?, pyWs c = false := by
    have := pstrip_head (l := n)
    rwa [hstr] at this
  have hhead : ∀ c ∈ (fieldChunk n v R).head?, isFieldSep c = false := by
    intro c hc
    have hfc : (fieldChunk n v R).head? = n.head? := by
      unfold fieldChunk
      match n, hne with
      | a :: as, _ => rfl
    rw [hfc] at hc
    refine isFieldSep_false_of c (hnws c hc) ?_
    intro hcomma
    subst hcomma
    match n, hne, hc with
    | a :: as, _, hc =>
      simp only [List.head?_cons, Option.mem_def, Option.some.injEq] at hc
      exact hnc (by rw [List.head?_cons, hc])
  have hself : (fieldChunk n v R).dropWhile isFieldSep = fieldChunk n v R :=
    dropWhile_eq_self_of_head hhead
  have hfne : (fieldChunk n v R).isEmpty = false := by
    unfold fieldChunk
    match n, hne with
    | a :: as, _ => rfl
  have hneq : ∀ c ∈ n, (fun c => decide (c ≠ '=')) c = true := by
    intro c hc
    simp only [decide_eq_true_eq]
    intro h
    exact heq (h ▸ hc)
  have hkeyRaw : (fieldChunk n v R).takeWhile (fun c => c ≠ '=') = n ++ [' '] := by
    unfold fieldChunk
    rw [takeWhile_append_all _ hneq, List.takeWhile_cons, if_pos (by decide),
      List.takeWhile_cons, if_neg (by decide)]
  have hdrop : (fieldChunk n v R).dropWhile (fun c => c ≠ '=') =
      '=' :: ' ' :: '\x7b' :: (v ++ '\x7d' :: ',' :: R) := by
    unfold fieldChunk
    rw [dropWhile_append_all _ hneq, List.dropWhile_cons, if_pos (by decide),
      List.dropWhile_cons, if_neg (by decide)]
  have hfkey : toLowerL (pstrip (n ++ [' '])) = n := by
    rw [pstrip_append_space, hstr, hlow]
  have hgap : (' ' :: '\x7b' :: (v ++ '\x7d' :: ',' :: R)).dropWhile isValueGapWs =
      '\x7b' :: (v ++ '\x7d' :: ',' :: R) := by
    rw [List.dropWhile_cons, if_pos (by decide), List.dropWhile_cons, if_neg (by decide)]
  have hbv : braceValueScan 1 (v ++ '\x7d' :: ',' :: R) = (v ++ ['\x7d'], ',' :: R) :=
    braceValueScan_balanced v 1 (',' :: R) (by omega) (by omega) hok
  have hfkeyne : n.isEmpty = false := by
    match n, hne with
    | a :: as, _ => rfl
  rw [parseFieldsAux_eq]
  unfold parseFieldsStep
  simp only [hself, hfne, hkeyRaw, hfkey, hfkeyne, hdrop, hgap, hbv]
  have hv' : pstrip v = v := hv
  simp [postSkip, List.dropLast_concat, hv']

theorem parseFieldsAux_chunks (fs : List (Chars × Chars)) : ∀ acc : List (Chars × Chars),
    (∀ p ∈ fs, goodName p.1 ∧ p.1.head? ≠ some ',' ∧ goodValue p.2 ∧
      bal p.2 = 0 ∧ minDepthOk 1 p.2 = true) →
    parseFieldsAux (chunks fs) acc = fs.foldl (fun m p => dictSet m p.1 p.2) acc := by
  induction fs with
  | nil => intro acc _; rfl
  | cons p fs ih =>
    obtain ⟨n, v⟩ := p
    intro acc h
    have hp := h (n, v) (by simp)
    show parseFieldsAux (fieldChunk n v (chunks fs)) acc = _
    rw [parseFieldsAux_chunk n v (chunks fs) acc hp.1 hp.2.1 hp.2.2.1 hp.2.2.2.1
        hp.2.2.2.2,
      ih (dictSet acc n v) (fun q hq => h q (by simp [hq]))]
    rfl

theorem dictSet_append (m : List (Chars × Chars)) (k v : Chars)
    (h : ∀ p ∈ m, p.1 ≠ k) : dictSet m k v = m ++ [(k, v)] := by
  induction m with
  | nil => rfl
  | cons q rest ih =>
    obtain ⟨k', v'⟩ := q
    simp only [dictSet]
    rw [if_neg (h (k', v') (by simp)), ih (fun p hp => h p (by simp [hp]))]
    rfl

theorem foldl_dictSet (fs : List (Chars × Chars)) : ∀ acc : List (Chars × Chars),
    (∀ p ∈ acc, ∀ q ∈ fs, p.1 ≠ q.1) → fs.Pairwise (fun p q => p.1 ≠ q.1) →
    fs.foldl (fun m p => dictSet m p.1 p.2) acc = acc ++ fs := by
  induction fs with
  | nil => intro acc _ _; simp
  | cons p fs ih =>
    obtain ⟨n, v⟩ := p
    intro acc hdisj hnd
    rw [List.pairwise_cons] at hnd
    rw [List.foldl_cons]
    rw [show dictSet acc (n, v).1 (n, v).2 = dictSet acc n v from rfl,
      dictSet_append acc n v (fun q hq => hdisj q hq (n, v) (by simp)),
      ih (acc ++ [(n, v)]) ?_ hnd.2]
    · simp
    · intro x hx q hq
      rcases List.mem_append.mp hx with hx | hx
      · exact hdisj x hx q (by simp [hq])
      · simp only [List.mem_singleton] at hx
        subst hx
        exact hnd.1 q hq

theorem dictSet_pairwise (m : List (Chars × Chars)) (k v : Chars)
    (h : m.Pairwise (fun p q => p.1 ≠ q.1)) :
    (dictSet m k v).Pairwise (fun p q => p.1 ≠ q.1) := by
  induction m with
  | nil => simp [dictSet]
  | cons q rest ih =>
    obtain ⟨k', v'⟩ := q
    rw [List.pairwise_cons] at h
    obtain ⟨hq, hrest⟩ := h
    simp only [dictSet]
    by_cases hkk : k' = k
    · rw [if_pos hkk, List.pairwise_cons]
      exact ⟨hq, hrest⟩
    · rw [if_neg hkk, List.pairwise_cons]
      refine ⟨?_, ih hrest⟩
      intro a ha
      have := (@dictSet_forall (fun x => x = k ∨ ∃ q ∈ rest, x = q.1)
        (fun _ => True) rest k v (fun p hp => ⟨Or.inr ⟨p, hp, rfl⟩, trivial⟩)
        (Or.inl rfl) trivial) a ha
      rcases this.1 with h1 | ⟨q, hq', hq''⟩
      · rw [h1]
        exact hkk
      · rw [hq'']
        exact hq q hq'

theorem parseFieldsGo_nodup (fuel : Nat) :
    ∀ (s : Chars) (acc : List (Chars × Chars)),
      acc.Pairwise (fun p q => p.1 ≠ q.1) →
      (parseFieldsGo fuel s acc).Pairwise (fun p q => p.1 ≠ q.1) := by
  induction fuel with
  | zero => intro s acc hacc; exact hacc
  | succ fuel ih =>
    intro s acc hacc
    show (parseFieldsStep (parseFieldsGo fuel) s acc).Pairwise _
    simp only [parseFieldsStep]
    split
    · exact hacc
    · split
      · exact hacc
      · split
        · exact hacc
        · split
          · exact hacc
          · split
            · exact ih _ _ (dictSet_pairwise _ _ _ hacc)
            · split
              · exact ih _ _ (dictSet_pairwise _ _ _ hacc)
              · exact ih _ _ (dictSet_pairwise _ _ _ hacc)

theorem parseFieldsL_nodup (e : Chars) :
    (parseFieldsL e).2.Pairwise (fun p q => p.1 ≠ q.1) := by
  unfold parseFieldsL
  rcases hks : keySearch e with _ | ⟨k, ak⟩
  · simp
  · simp only
    rcases hdw : ak.dropWhile (fun c => c ≠ ',') with _ | ⟨x, ac⟩
    · simp
    · simp only
      exact parseFieldsGo_nodup _ _ [] (by simp)

/-- C5 counterexample: a quoted value may contain an unbalanced brace; the
entry `@misc{k, title = "a}b"}` parses to `title ↦ a}b`, and re-serializing
that mapping as `title = {a}b},` and re-parsing yields `title ↦ a`, not the
original mapping. -/
theorem claim_C5_counterexample :
    (parseFieldsL (mkEntry (chunks
        (parseFieldsL "@misc\x7bk, title = \"a\x7db\"\x7d".data).2))).2 ≠
      (parseFieldsL "@misc\x7bk, title = \"a\x7db\"\x7d".data).2 := by
  decide

/-- C5 (amended): for every field mapping produced by `parse_fields` whose
values are brace-balanced and whose names do not begin with a comma (names
can begin with a comma only through vertical-tab/form-feed edge cases),
re-serializing the fields as `name = {value}` pairs and re-parsing
reproduces exactly the same mapping — the parser stores names and values
already stripped, so the equality is exact, not merely up to outer
whitespace.  Values with unbalanced braces (possible via quoted or bare
values) break the round trip, as the counterexample shows. -/
theorem claim_C5 (e : Chars)
    (hbal : ∀ p ∈ (parseFieldsL e).2, bal p.2 = 0 ∧ minDepthOk 1 p.2 = true)
    (hnc : ∀ p ∈ (parseFieldsL e).2, p.1.head? ≠ some ',') :
    (parseFieldsL (mkEntry (chunks (parseFieldsL e).2))).2 = (parseFieldsL e).2 := by
  have hshape := parseFieldsL_shape e
  have hnodup := parseFieldsL_nodup e
  rcases hfs : (parseFieldsL e).2 with _ | ⟨⟨n, v⟩, fs'⟩
  · decide
  · rw [hfs] at hshape hbal hnc hnodup
    have hgood : ∀ p ∈ (n, v) :: fs', goodName p.1 ∧ p.1.head? ≠ some ',' ∧
        goodValue p.2 ∧ bal p.2 = 0 ∧ minDepthOk 1 p.2 = true :=
      fun p hp => ⟨(hshape p hp).1, hnc p hp, (hshape p hp).2,
        (hbal p hp).1, (hbal p hp).2⟩
    have hn := (hgood (n, v) (by simp)).1
    have hchne : chunks ((n, v) :: fs') ≠ [] := by
      show fieldChunk n v (chunks fs') ≠ []
      unfold fieldChunk
      match n, hn.1 with
      | a :: as, _ => simp
    have hchhead : ∀ c ∈ (chunks ((n, v) :: fs')).head?, pyWs c = false := by
      intro c hc
      have hfc : (chunks ((n, v) :: fs')).head? = n.head? := by
        show (fieldChunk n v (chunks fs')).head? = n.head?
        unfold fieldChunk
        match n, hn.1 with
        | a :: as, _ => rfl
      rw [hfc] at hc
      have hnws : ∀ c ∈ n.head?, pyWs c = false := by
        have := pstrip_head (l := n)
        rwa [hn.2.2.1] at this
      exact hnws c hc
    rw [parseFieldsL_mkEntry _ hchne hchhead]
    show parseFieldsAux (chunks ((n, v) :: fs')) [] = _
    rw [parseFieldsAux_chunks _ [] hgood, foldl_dictSet _ [] (by simp) hnodup]
    rfl

/-- C5 witness: a two-field entry with balanced braced values round-trips
exactly. -/
theorem claim_C5_witness :
    (parseFieldsL (mkEntry (chunks
        (parseFieldsL "@misc\x7bk,a = \x7bx\x7d,b = \x7by\x7d\x7d".data).2))).2 =
      (parseFieldsL "@misc\x7bk,a = \x7bx\x7d,b = \x7by\x7d\x7d".data).2 :=
  claim_C5 "@misc\x7bk,a = \x7bx\x7d,b = \x7by\x7d\x7d".data (by decide) (by decide)

/-- C8 witness: a concrete two-line title with a blank line before the
authors, and the empty-input case of the empty-title clause. -/
theorem claim_C8_witness :
    (wsTokens ((extract_basic_metadata "arXiv:1\nA Title\nSplit Over Lines\n\nAuthor\n").title.data) =
      wsTokens (claimTitle "arXiv:1\nA Title\nSplit Over Lines\n\nAuthor\n")) ∧
    (extract_basic_metadata "").title = "" :=
  ⟨(claim_C8 "arXiv:1\nA Title\nSplit Over Lines\n\nAuthor\n").1, (claim_C8 "").2 rfl⟩

end KmscalePubs
